import Mathlib

/-!
# Verification of node-msgpack (`src/msgpack.cc`)

A shallow embedding of the msgpack V8 binding: the host (JavaScript/V8)
value model, the intermediate `msgpack_object` tree, the cycle guard,
the recursive converters `v8_to_msgpack` and `msgpack_to_v8`, and the
`pack`/`unpack` entry points, together with a model of the wire codec of
the bundled msgpack C library (serializer and deserializer over byte
lists).

Conventions:
  * JavaScript numbers are modelled as exact rationals (`ℚ`).  All
    executable definitions construct rationals with `mkRat` (the `Rat`
    field accessors and `mkRat` reduce in the kernel; `Rat.add`/`Rat.mul`
    are `@[irreducible]` and would block evaluation).
  * Strings and buffers are byte lists (`List Nat`, each element < 256
    for well-formed values).
  * Reference identity of composite host values (what V8's
    `StrictEquals` compares for objects) is modelled by a numeric `id`
    carried on every array/object constructor.  A self-referential
    value such as `a = []; a.push(a)` is modelled by a finite value in
    which the inner occurrence carries the same `id` as the outer one;
    the cycle guard throws before it would ever descend past the
    repeated occurrence, so the finite value exercises exactly the same
    code path as the genuinely cyclic heap value.
-/

set_option linter.unusedTactic false

set_option linter.unreachableTactic false

namespace NodeMsgpack

/-! ## Host value model (V8 values) -/

/-- A V8 host value as seen by the binding: the argument model of
`pack` and the result model of `unpack`.  `arr`/`obj` carry the
reference identity used by the cycle guard's `StrictEquals` scan. -/
inductive JsValue where
  | undef : JsValue
  | null : JsValue
  | boolean (b : Bool) : JsValue
  | num (q : ℚ) : JsValue
  | str (s : List Nat) : JsValue
  | buf (s : List Nat) : JsValue
  | arr (id : Nat) (elems : List JsValue) : JsValue
  | obj (id : Nat) (props : List (JsValue × JsValue)) : JsValue

mutual
/-- Structural value equality on host values that ignores the reference
identities of composites: the sense in which a decoded value "equals"
the value that was encoded (decoding always allocates fresh objects). -/
def jsEqv : JsValue → JsValue → Bool
  | .undef, .undef => true
  | .null, .null => true
  | .boolean a, .boolean b => a == b
  | .num a, .num b => decide (a = b)
  | .str a, .str b => a == b
  | .buf a, .buf b => a == b
  | .arr _ a, .arr _ b => jsEqvL a b
  | .obj _ a, .obj _ b => jsEqvP a b
  | _, _ => false

def jsEqvL : List JsValue → List JsValue → Bool
  | [], [] => true
  | a :: as', b :: bs' => jsEqv a b && jsEqvL as' bs'
  | _, _ => false

def jsEqvP : List (JsValue × JsValue) → List (JsValue × JsValue) → Bool
  | [], [] => true
  | (ka, va) :: as', (kb, vb) :: bs' => jsEqv ka kb && jsEqv va vb && jsEqvP as' bs'
  | _, _ => false
end

/-! ## Intermediate representation (`msgpack_object`) -/

/-- The `msgpack_object` tagged union: one active payload per tag. -/
inductive MsgObject where
  | nil : MsgObject
  | boolean (b : Bool) : MsgObject
  | posInt (u : Nat) : MsgObject
  | negInt (i : Int) : MsgObject
  | double (d : ℚ) : MsgObject
  | raw (s : List Nat) : MsgObject
  | array (l : List MsgObject) : MsgObject
  | map (l : List (MsgObject × MsgObject)) : MsgObject

/-! ## Cycle guard (`MsgpackCycle`) -/

/-- The fixed diagnostic text thrown on a circular reference
(`src/msgpack.cc` line 81). -/
def cycleMsg : String :=
  "Cowardly refusing to pack object with circular reference"

/-- `MsgpackCycle::enter`: scan `_objs` for the identity being entered;
on a hit call `out()` (which pops the most recently pushed entry) and
throw; otherwise push.  The stack is a list with the most recently
pushed identity at the head, so `out()` is `List.tail`.  An error
carries the exception message and the stack state left behind by the
throw. -/
def mcEnter (st : List Nat) (id : Nat) : Except (String × List Nat) (List Nat) :=
  if id ∈ st then .error (cycleMsg, st.tail) else .ok (id :: st)

/-! ## `v8_to_msgpack` -/

/-- Model of C `trunc(d) != d`: the number has a nonzero fractional
part, i.e. it is not an integer. -/
def hasFrac (q : ℚ) : Bool := q.den != 1

mutual
/-- `v8_to_msgpack` (`src/msgpack.cc` lines 122–195): convert a host
value to a `msgpack_object`, threading the cycle-guard stack.  A thrown
`MsgpackException` propagates as `.error (msg, stack)`; note that the
`mc->out()` calls are *not* executed when an exception unwinds through
the array/object branches, exactly as in the C++ (there is no catch
block inside `v8_to_msgpack`). -/
def v8_to_msgpack : JsValue → List Nat →
    Except (String × List Nat) (MsgObject × List Nat)
  | .undef, st => .ok (.nil, st)
  | .null, st => .ok (.nil, st)
  | .boolean b, st => .ok (.boolean b, st)
  | .num q, st =>
    if hasFrac q then .ok (.double q, st)
    else if 0 < q then .ok (.posInt q.num.toNat, st)
    else .ok (.negInt q.num, st)
  | .str s, st => .ok (.raw s, st)
  | .arr id elems, st =>
    match mcEnter st id with
    | .error e => .error e
    | .ok st1 =>
      match v8ListToMsgpack elems st1 with
      | .error e => .error e
      | .ok (l, st2) => .ok (.array l, st2.tail)
  | .buf s, st => .ok (.raw s, st)
  | .obj id props, st =>
    match mcEnter st id with
    | .error e => .error e
    | .ok st1 =>
      match v8PairsToMsgpack props st1 with
      | .error e => .error e
      | .ok (l, st2) => .ok (.map l, st2.tail)

/-- The element loop of the `IsArray` branch. -/
def v8ListToMsgpack : List JsValue → List Nat →
    Except (String × List Nat) (List MsgObject × List Nat)
  | [], st => .ok ([], st)
  | v :: vs, st =>
    match v8_to_msgpack v st with
    | .error e => .error e
    | .ok (mo, st1) =>
      match v8ListToMsgpack vs st1 with
      | .error e => .error e
      | .ok (l, st2) => .ok (mo :: l, st2)

/-- The property loop of the map branch: each key, then its value. -/
def v8PairsToMsgpack : List (JsValue × JsValue) → List Nat →
    Except (String × List Nat) (List (MsgObject × MsgObject) × List Nat)
  | [], st => .ok ([], st)
  | (k, v) :: ps, st =>
    match v8_to_msgpack k st with
    | .error e => .error e
    | .ok (mk', st1) =>
      match v8_to_msgpack v st1 with
      | .error e => .error e
      | .ok (mv, st2) =>
        match v8PairsToMsgpack ps st2 with
        | .error e => .error e
        | .ok (l, st3) => .ok ((mk', mv) :: l, st3)
end

/-! ## Wire serializer

Modelled from the spec: the serializer (`msgpack_pack_object` and the
`msgpack_pack_*` routines of the bundled msgpack C library) is not part
of `src/`; §6 of the spec fixes the wire format ("tag selects smallest
exact encoding for the value's magnitude and sign", length-prefixed
raw/array/map families, float64 as tag + 8 IEEE-754 big-endian
bytes). -/

/-- Big-endian byte string of `v`, exactly `w` bytes (the low `8*w` bits
of `v`). -/
def beBytes : Nat → Nat → List Nat
  | 0, _ => []
  | w + 1, v => beBytes w (v / 256) ++ [v % 256]

/-- Big-endian value of a byte string. -/
def beval (l : List Nat) : Nat := l.foldl (fun a b => a * 256 + b) 0

/-- IEEE-754 binary64 bit pattern of a rational (normal range).
Modelled from the spec: "float64: tag + 8 bytes, IEEE-754 big-endian".
Values that are not representable binary64 normal numbers get some
bit pattern; the round-trip theorems restrict to representable
inputs. -/
def f64bits (q : ℚ) : Nat :=
  if q = 0 then 0
  else
    let s : Nat := if q < 0 then 1 else 0
    let n : Nat := q.num.natAbs
    let sh : Nat := Nat.log 2 q.den
    let L : Nat := Nat.log 2 n
    let E : Nat := (L + 1023 - sh) % 2048
    let m : Nat := if L ≤ 52 then n * 2 ^ (52 - L) else n / 2 ^ (L - 52)
    s * 2 ^ 63 + E * 2 ^ 52 + m % 2 ^ 52

/-- Rational value of an IEEE-754 binary64 bit pattern (big-endian
integer form).  NaN and infinities (exponent field 2047) are collapsed
to 0: they are not representable in the exact-rational number model and
no claim depends on them. -/
def f64ofBits (x : Nat) : ℚ :=
  let s : Int := if x / 2 ^ 63 % 2 = 1 then -1 else 1
  let E : Nat := x / 2 ^ 52 % 2 ^ 11
  let f : Nat := x % 2 ^ 52
  if E = 0 then mkRat (s * f) (2 ^ 1074)
  else if E = 2047 then 0
  else mkRat (s * (2 ^ 52 + f) * 2 ^ E) (2 ^ 1075)

/-- Rational value of an IEEE-754 binary32 bit pattern (the parser's
float32 case; the encoder never emits it). -/
def f32ofBits (x : Nat) : ℚ :=
  let s : Int := if x / 2 ^ 31 % 2 = 1 then -1 else 1
  let E : Nat := x / 2 ^ 23 % 2 ^ 8
  let f : Nat := x % 2 ^ 23
  if E = 0 then mkRat (s * f) (2 ^ 149)
  else if E = 255 then 0
  else mkRat (s * (2 ^ 23 + f) * 2 ^ E) (2 ^ 150)

/-- Smallest-form unsigned integer encoding (positive fixint, uint8,
uint16, uint32, uint64). -/
def packUint (u : Nat) : List Nat :=
  if u ≤ 0x7f then [u]
  else if u < 2 ^ 8 then [0xcc, u]
  else if u < 2 ^ 16 then 0xcd :: beBytes 2 u
  else if u < 2 ^ 32 then 0xce :: beBytes 4 u
  else 0xcf :: beBytes 8 u

/-- Smallest-form signed integer encoding (`msgpack_pack_int64`):
non-negative values use the unsigned forms, negative values the
negative fixint / int8 / int16 / int32 / int64 forms. -/
def packInt (i : Int) : List Nat :=
  if 0 ≤ i then packUint i.toNat
  else if -32 ≤ i then [(i + 256).toNat]
  else if -(2 ^ 7) ≤ i then [0xd0, (i + 2 ^ 8).toNat]
  else if -(2 ^ 15) ≤ i then 0xd1 :: beBytes 2 (i + 2 ^ 16).toNat
  else if -(2 ^ 31) ≤ i then 0xd2 :: beBytes 4 (i + 2 ^ 32).toNat
  else 0xd3 :: beBytes 8 (i + 2 ^ 64).toNat

/-- Header of the raw family (fixraw ≤ 31, raw16, raw32). -/
def rawHeader (n : Nat) : List Nat :=
  if n ≤ 31 then [0xa0 + n]
  else if n < 2 ^ 16 then 0xda :: beBytes 2 n
  else 0xdb :: beBytes 4 n

/-- Header of the array family (fixarray ≤ 15, array16, array32). -/
def arrayHeader (n : Nat) : List Nat :=
  if n ≤ 15 then [0x90 + n]
  else if n < 2 ^ 16 then 0xdc :: beBytes 2 n
  else 0xdd :: beBytes 4 n

/-- Header of the map family (fixmap ≤ 15, map16, map32). -/
def mapHeader (n : Nat) : List Nat :=
  if n ≤ 15 then [0x80 + n]
  else if n < 2 ^ 16 then 0xde :: beBytes 2 n
  else 0xdf :: beBytes 4 n

mutual
/-- `msgpack_pack_object`: serialize one node to wire bytes.
Modelled from the spec (§4.1 "Packing" and §6 "Wire format"). -/
def packObj : MsgObject → List Nat
  | .nil => [0xc0]
  | .boolean false => [0xc2]
  | .boolean true => [0xc3]
  | .posInt u => packUint u
  | .negInt i => packInt i
  | .double d => 0xcb :: beBytes 8 (f64bits d)
  | .raw s => rawHeader s.length ++ s
  | .array l => arrayHeader l.length ++ packList l
  | .map l => mapHeader l.length ++ packPairs l

def packList : List MsgObject → List Nat
  | [] => []
  | mo :: l => packObj mo ++ packList l

def packPairs : List (MsgObject × MsgObject) → List Nat
  | [] => []
  | (k, v) :: l => packObj k ++ packObj v ++ packPairs l
end

/-! ## `pack` entry point -/

/-- The argument loop of `pack` (`src/msgpack.cc` lines 271–284).  The
C++ converts `args[0]` on *every* iteration (the loop index `i` is not
used in the body), so the first argument is serialized `n` times.  The
shared `MsgpackCycle` instance is threaded through the iterations and
its final state (what the destructor's `assert(_objs.empty())` sees) is
returned alongside the result. -/
def packIter (a0 : JsValue) : Nat → List Nat → List Nat →
    Except String (List Nat) × List Nat
  | 0, acc, st => (.ok acc, st)
  | n + 1, acc, st =>
    match v8_to_msgpack a0 st with
    | .error (msg, st') => (.error msg, st')
    | .ok (mo, st') => packIter a0 n (acc ++ packObj mo) st'

/-- `pack` (`src/msgpack.cc` lines 260–289): convert and serialize, one
loop iteration per argument, accumulating into one buffer.  Returns the
result together with the final cycle-guard stack.  (The
`msgpack_pack_object` failure branch, an allocation failure inside the
byte buffer, has no counterpart in this model: serialization into a
`List Nat` is total.) -/
def pack (args : List JsValue) : Except String (List Nat) × List Nat :=
  match args with
  | [] => (.ok [], [])
  | a0 :: rest => packIter a0 (rest.length + 1) [] []

/-! ## Wire deserializer

Modelled from the spec: `msgpack_unpack` (the template unpacker of the
bundled msgpack C library) is not part of `src/`; §4.2 and §6 of the
spec fix its behaviour — parse one object from offset 0, produce the
object plus the final offset on success, "Incomplete" when the buffer
holds fewer bytes than one object needs, and an error for a malformed
type tag. -/

/-- Result of parsing one object: the node and the number of consumed
bytes, `more` ("need more bytes", `MSGPACK_UNPACK_CONTINUE`), or a
parse error. -/
inductive PResult where
  | ok (mo : MsgObject) (k : Nat) : PResult
  | more : PResult
  | err : PResult

/-- Result of parsing a sequence of objects. -/
inductive PNResult where
  | ok (l : List MsgObject) (k : Nat) : PNResult
  | more : PNResult
  | err : PNResult

/-- Read `c` bytes big-endian; `none` when fewer than `c` bytes
remain. -/
def readBE (c : Nat) (bs : List Nat) : Option Nat :=
  if bs.length < c then none else some (beval (bs.take c))

/-- How a composite tag obtains its element count: encoded in the tag
byte itself, or read big-endian from the next `c` bytes. -/
inductive CountSrc where
  | lit (n : Nat) : CountSrc
  | be (c : Nat) : CountSrc

/-- Count and number of extra header bytes consumed. -/
def getCount : CountSrc → List Nat → Option (Nat × Nat)
  | .lit n, _ => some (n, 0)
  | .be c, bs =>
    match readBE c bs with
    | none => none
    | some n => some (n, c)

/-- Decoded dispatch of a tag byte. -/
inductive Tag where
  | imm (mo : MsgObject) : Tag
  | fixed (c : Nat) (mk : Nat → MsgObject) : Tag
  | rawC (src : CountSrc) : Tag
  | arrC (src : CountSrc) : Tag
  | mapC (src : CountSrc) : Tag
  | bad : Tag

/-- Sized signed integer interpretation: build a positive or negative
integer node depending on the sign bit, like the int8/16/32/64 cases of
the msgpack template unpacker. -/
def sgnNode (w : Nat) (v : Nat) : MsgObject :=
  if v < 2 ^ (w - 1) then .posInt v else .negInt ((v : Int) - 2 ^ w)

/-- The tag table of the classic (pre-2.0) MessagePack format used by
the bundled library: positive fixint, fixmap, fixarray, fixraw, nil,
booleans, float32/64, uint8–64, int8–64, raw16/32, array16/32,
map16/32, negative fixint; everything else (0xc1, 0xc4–0xc9, 0xd4–0xd9)
is malformed. -/
def tagOf (b : Nat) : Tag :=
  if b ≤ 0x7f then .imm (.posInt b)
  else if b ≤ 0x8f then .mapC (.lit (b - 0x80))
  else if b ≤ 0x9f then .arrC (.lit (b - 0x90))
  else if b ≤ 0xbf then .rawC (.lit (b - 0xa0))
  else if b = 0xc0 then .imm .nil
  else if b = 0xc2 then .imm (.boolean false)
  else if b = 0xc3 then .imm (.boolean true)
  else if b = 0xca then .fixed 4 (fun v => .double (f32ofBits v))
  else if b = 0xcb then .fixed 8 (fun v => .double (f64ofBits v))
  else if b = 0xcc then .fixed 1 .posInt
  else if b = 0xcd then .fixed 2 .posInt
  else if b = 0xce then .fixed 4 .posInt
  else if b = 0xcf then .fixed 8 .posInt
  else if b = 0xd0 then .fixed 1 (sgnNode 8)
  else if b = 0xd1 then .fixed 2 (sgnNode 16)
  else if b = 0xd2 then .fixed 4 (sgnNode 32)
  else if b = 0xd3 then .fixed 8 (sgnNode 64)
  else if b = 0xda then .rawC (.be 2)
  else if b = 0xdb then .rawC (.be 4)
  else if b = 0xdc then .arrC (.be 2)
  else if b = 0xdd then .arrC (.be 4)
  else if b = 0xde then .mapC (.be 2)
  else if b = 0xdf then .mapC (.be 4)
  else if 0xe0 ≤ b ∧ b ≤ 0xff then .imm (.negInt ((b : Int) - 256))
  else .bad

/-- Fixed-size payload: read `c` bytes and build a node. -/
def finFixed (c : Nat) (mk : Nat → MsgObject) (r : List Nat) : PResult :=
  match readBE c r with
  | none => .more
  | some v => .ok (mk v) (1 + c)

/-- Raw payload: take `n` bytes after `h` header bytes. -/
def finRaw (n h : Nat) (r : List Nat) : PResult :=
  if r.length < n then .more else .ok (.raw (r.take n)) (h + n)

/-- Wrap a parsed element sequence into a composite node. -/
def finSeq (wrap : List MsgObject → MsgObject) (res : PNResult) (h : Nat) : PResult :=
  match res with
  | .ok l k => .ok (wrap l) (h + k)
  | .more => .more
  | .err => .err

/-- Pair up a key/value-interleaved object sequence. -/
def pairUp : List MsgObject → List (MsgObject × MsgObject)
  | k :: v :: rest => (k, v) :: pairUp rest
  | _ => []

/-- Parse `m` consecutive objects with the object parser `p`,
accumulating consumed bytes. -/
def runN (p : List Nat → PResult) : Nat → List Nat → PNResult
  | 0, _ => .ok [] 0
  | m + 1, bs =>
    match p bs with
    | .ok mo k =>
      match runN p m (bs.drop k) with
      | .ok l k' => .ok (mo :: l) (k + k')
      | .more => .more
      | .err => .err
    | .more => .more
    | .err => .err

/-- Parse one object from the front of `bs`.  The fuel argument bounds
the nesting depth; `msgpack_unpack` supplies `bs.length + 1`, which can
never be exhausted because every nesting level consumes at least one
header byte before recursing. -/
def parse : Nat → List Nat → PResult
  | 0, _ => .more
  | f + 1, bs =>
    match bs with
    | [] => .more
    | b :: r =>
      match tagOf b with
      | .imm mo => .ok mo 1
      | .fixed c mk => finFixed c mk r
      | .rawC src =>
        match getCount src r with
        | none => .more
        | some (n, c) => finRaw n (1 + c) (r.drop c)
      | .arrC src =>
        match getCount src r with
        | none => .more
        | some (n, c) => finSeq .array (runN (fun x => parse f x) n (r.drop c)) (1 + c)
      | .mapC src =>
        match getCount src r with
        | none => .more
        | some (n, c) =>
          finSeq (fun l => .map (pairUp l)) (runN (fun x => parse f x) (2 * n) (r.drop c)) (1 + c)
      | .bad => .err

/-- `msgpack_unpack` on a byte buffer: parse one object starting at
offset 0, bounded by the buffer length. -/
def msgpack_unpack (bs : List Nat) : PResult := parse (bs.length + 1) bs

/-! ## `msgpack_to_v8` -/

/-- `Integer::New(int32_t)` on an int64 value: truncation to 32-bit
signed. -/
def wrap32 (i : Int) : Int := (i + 2 ^ 31) % 2 ^ 32 - 2 ^ 31

/-- `o->Set(k, v)` on a plain object: if an equal key is present its
value is replaced in place (the key keeps its position), otherwise the
property is appended in enumeration order. -/
def setProp : List (JsValue × JsValue) → JsValue → JsValue → List (JsValue × JsValue)
  | [], k, v => [(k, v)]
  | (k0, v0) :: rest, k, v =>
    if jsEqv k0 k then (k0, v) :: rest else (k0, v0) :: setProp rest k v

/-- Assign the decoded pairs onto a fresh object in order (duplicate
keys: last write wins). -/
def objFromPairs (ps : List (JsValue × JsValue)) : List (JsValue × JsValue) :=
  ps.foldl (fun acc kv => setProp acc kv.1 kv.2) []

mutual
/-- `msgpack_to_v8` (`src/msgpack.cc` lines 201–250): convert a node to
a host value.  Positive integers go through
`Integer::NewFromUnsigned`, whose `uint32_t` parameter truncates the
`u64` payload mod `2^32`; negative integers go through
`Integer::New`, whose `int32_t` parameter truncates the `i64` payload
to 32-bit signed.  Decoded composites are fresh objects; their
identity is irrelevant to every claim, so they carry id 0. -/
def msgpack_to_v8 : MsgObject → JsValue
  | .nil => .null
  | .boolean b => .boolean b
  | .posInt u => .num (mkRat (u % 2 ^ 32) 1)
  | .negInt i => .num (mkRat (wrap32 i) 1)
  | .double d => .num d
  | .raw s => .str s
  | .array l => .arr 0 (msgpackListToV8 l)
  | .map l => .obj 0 (objFromPairs (msgpackPairsToV8 l))

def msgpackListToV8 : List MsgObject → List JsValue
  | [] => []
  | mo :: l => msgpack_to_v8 mo :: msgpackListToV8 l

def msgpackPairsToV8 : List (MsgObject × MsgObject) → List (JsValue × JsValue)
  | [] => []
  | (k, v) :: l => (msgpack_to_v8 k, msgpack_to_v8 v) :: msgpackPairsToV8 l
end

/-! ## `unpack` entry point -/

/-- What a call to `unpack` produces: a decoded value, the undefined
marker ("incomplete"), or a thrown exception. -/
inductive UnpackOutcome where
  | value (v : JsValue) : UnpackOutcome
  | undef : UnpackOutcome
  | typeErr (msg : String) : UnpackOutcome
  | deserErr (msg : String) : UnpackOutcome

/-- The `TypeError` text of the buffer check (`src/msgpack.cc` line
305). -/
def bufferMsg : String := "First argument must be a Buffer"

/-- The error text of the malformed-input branch (`src/msgpack.cc` line
332). -/
def deserMsg : String := "Error de-serializing object"

/-- `unpack` (`src/msgpack.cc` lines 296–334).  `br` is the current
value of the `bytes_remaining` property on the unpack function (absent
= `none`); the returned pair is the outcome together with the new value
of that property.  Only the success path (`MSGPACK_UNPACK_SUCCESS` or
`MSGPACK_UNPACK_EXTRA_BYTES`) writes `bytes_remaining`, to
`Buffer::Length(buf) - off`. -/
def unpack (br : Option Nat) (arg : JsValue) : UnpackOutcome × Option Nat :=
  match arg with
  | .buf bs =>
    match msgpack_unpack bs with
    | .ok mo k => (.value (msgpack_to_v8 mo), some (bs.length - k))
    | .more => (.undef, br)
    | .err => (.deserErr deserMsg, br)
  | _ => (.typeErr bufferMsg, br)

/-! ## Round-trip infrastructure

The value-level content of `v8_to_msgpack` (ignoring the guard stack),
the normalization a wire round trip applies to a node, the node
well-formedness and depth measures used by the encode/decode
correspondence, and the decidable domain of round-trippable host
values. -/

mutual
/-- The node produced by `v8_to_msgpack` for a value on which the cycle
guard never fires (the stack-free value component). -/
def toNode : JsValue → MsgObject
  | .undef => .nil
  | .null => .nil
  | .boolean b => .boolean b
  | .num q =>
    if hasFrac q then .double q
    else if 0 < q then .posInt q.num.toNat
    else .negInt q.num
  | .str s => .raw s
  | .buf s => .raw s
  | .arr _ l => .array (toNodeL l)
  | .obj _ ps => .map (toNodeP ps)

def toNodeL : List JsValue → List MsgObject
  | [] => []
  | v :: vs => toNode v :: toNodeL vs

def toNodeP : List (JsValue × JsValue) → List (MsgObject × MsgObject)
  | [] => []
  | (k, v) :: ps => (toNode k, toNode v) :: toNodeP ps
end

mutual
/-- What serializing and re-parsing does to a node: a non-negative
`negInt` comes back as a `posInt` (the serializer picks the unsigned
forms for non-negative values), and a double payload goes through the
float64 bit pattern. -/
def normObj : MsgObject → MsgObject
  | .nil => .nil
  | .boolean b => .boolean b
  | .posInt u => .posInt u
  | .negInt i => if 0 ≤ i then .posInt i.toNat else .negInt i
  | .double d => .double (f64ofBits (f64bits d))
  | .raw s => .raw s
  | .array l => .array (normList l)
  | .map l => .map (normPairs l)

def normList : List MsgObject → List MsgObject
  | [] => []
  | mo :: l => normObj mo :: normList l

def normPairs : List (MsgObject × MsgObject) → List (MsgObject × MsgObject)
  | [] => []
  | (k, v) :: l => (normObj k, normObj v) :: normPairs l
end

mutual
/-- Payload bounds under which the wire encoding is faithful: integer
payloads fit their 64-bit fields and sequence/byte counts fit the
32-bit length fields. -/
def wfNode : MsgObject → Bool
  | .nil => true
  | .boolean _ => true
  | .posInt u => decide (u < 2 ^ 64)
  | .negInt i => decide (-(2 ^ 63) ≤ i) && decide (i < 2 ^ 63)
  | .double _ => true
  | .raw s => decide (s.length < 2 ^ 32)
  | .array l => decide (l.length < 2 ^ 32) && wfList l
  | .map l => decide (l.length < 2 ^ 32) && wfPairs l

def wfList : List MsgObject → Bool
  | [] => true
  | mo :: l => wfNode mo && wfList l

def wfPairs : List (MsgObject × MsgObject) → Bool
  | [] => true
  | (k, v) :: l => wfNode k && wfNode v && wfPairs l
end

mutual
/-- Nesting depth of a node; the parser fuel needed is one more than
this. -/
def nodeDepth : MsgObject → Nat
  | .array l => depthList l + 1
  | .map l => depthPairs l + 1
  | _ => 0

def depthList : List MsgObject → Nat
  | [] => 0
  | mo :: l => max (nodeDepth mo) (depthList l)

def depthPairs : List (MsgObject × MsgObject) → Nat
  | [] => 0
  | (k, v) :: l => max (max (nodeDepth k) (nodeDepth v)) (depthPairs l)
end

/-- Key/value pairs flattened to the interleaved object sequence the
wire format carries. -/
def flattenP : List (MsgObject × MsgObject) → List MsgObject
  | [] => []
  | (k, v) :: l => k :: v :: flattenP l

/-- Representable IEEE-754 binary64 normal number: a nonzero dyadic
rational with at most 53 significant bits whose exponent lies in the
normal range. -/
def repF64 (q : ℚ) : Bool :=
  q != 0 && q.den == 2 ^ Nat.log 2 q.den &&
    (decide (Nat.log 2 q.num.natAbs ≤ 52) ||
     decide (2 ^ (Nat.log 2 q.num.natAbs - 52) ∣ q.num.natAbs)) &&
    decide (Nat.log 2 q.den ≤ Nat.log 2 q.num.natAbs + 1022) &&
    decide (Nat.log 2 q.num.natAbs ≤ Nat.log 2 q.den + 1023)

/-- The byte payload of a string key (used to state key
distinctness). -/
def keyBytes : JsValue → List Nat
  | .str s => s
  | _ => []

/-- Whether a host value is a text string. -/
def isStrKey : JsValue → Bool
  | .str _ => true
  | _ => false

/-- Pairwise-distinct byte lists. -/
def nodupKeys : List (List Nat) → Bool
  | [] => true
  | s :: rest => !(rest.contains s) && nodupKeys rest

mutual
/-- The round-trippable host values, relative to the identities already
on the guard stack: no `undefined` (it decodes as `null`), no binary
buffer (it decodes as a string), numbers restricted to the decoder's
32-bit integer constructors or to representable binary64 fractions,
length fields within 32 bits, composite identities fresh along the
nesting path, and object keys distinct strings. -/
def rtOk : List Nat → JsValue → Bool
  | _, .undef => false
  | _, .null => true
  | _, .boolean _ => true
  | _, .num q =>
    if q.den = 1 then
      (decide (0 < q.num) && decide (q.num < 2 ^ 32)) ||
      (decide (-(2 ^ 31) ≤ q.num) && decide (q.num ≤ 0))
    else repF64 q
  | _, .str s => decide (s.length < 2 ^ 32)
  | _, .buf _ => false
  | st, .arr id l =>
    !(st.contains id) && decide (l.length < 2 ^ 32) && rtOkL (id :: st) l
  | st, .obj id ps =>
    !(st.contains id) && decide (ps.length < 2 ^ 32) &&
      nodupKeys (ps.map fun kv => keyBytes kv.1) && rtOkP (id :: st) ps

def rtOkL : List Nat → List JsValue → Bool
  | _, [] => true
  | st, v :: vs => rtOk st v && rtOkL st vs

def rtOkP : List Nat → List (JsValue × JsValue) → Bool
  | _, [] => true
  | st, (k, v) :: ps => isStrKey k && rtOk st k && rtOk st v && rtOkP st ps
end

/-! ## Parser facts: what a successful parse implies

`ParseOkFacts f` collects, for a parse that succeeded at fuel `f`
consuming `k` bytes: the consumption bounds, that every truncation to
fewer than `k` bytes yields `more` at every fuel, and that the parse is
stable under replacing the bytes beyond offset `k` (same result, or
`more` when the fuel is too small).  `RunOkFacts` is the analogue for
the element-sequence parser. -/

def ParseOkFacts (f : Nat) : Prop :=
  ∀ bs mo k, parse f bs = .ok mo k →
    1 ≤ k ∧ k ≤ bs.length ∧
    (∀ n g, n < k → parse g (bs.take n) = .more) ∧
    (∀ ext g, parse g (bs.take k ++ ext) = .ok mo k ∨
              parse g (bs.take k ++ ext) = .more)

def RunOkFacts (f : Nat) : Prop :=
  ∀ m bs l k, runN (fun x => parse f x) m bs = .ok l k →
    k ≤ bs.length ∧
    (∀ n g, n < k → runN (fun x => parse g x) m (bs.take n) = .more) ∧
    (∀ ext g, runN (fun x => parse g x) m (bs.take k ++ ext) = .ok l k ∨
              runN (fun x => parse g x) m (bs.take k ++ ext) = .more)

/-! ## Parser lemmas -/

theorem parse_nil_eq (g : Nat) : parse g [] = .more := by
  cases g <;> rfl

/-- One unfolding of `parse` on a nonempty buffer. -/
theorem parse_succ_cons (f b : Nat) (r : List Nat) :
    parse (f + 1) (b :: r) =
      (match tagOf b with
      | .imm mo => .ok mo 1
      | .fixed c mk => finFixed c mk r
      | .rawC src =>
        match getCount src r with
        | none => .more
        | some (n, c) => finRaw n (1 + c) (r.drop c)
      | .arrC src =>
        match getCount src r with
        | none => .more
        | some (n, c) => finSeq .array (runN (fun x => parse f x) n (r.drop c)) (1 + c)
      | .mapC src =>
        match getCount src r with
        | none => .more
        | some (n, c) =>
          finSeq (fun l => .map (pairUp l)) (runN (fun x => parse f x) (2 * n) (r.drop c)) (1 + c)
      | .bad => .err) := rfl

theorem readBE_some {c : Nat} {bs : List Nat} {v : Nat}
    (h : readBE c bs = some v) : c ≤ bs.length ∧ v = beval (bs.take c) := by
  unfold readBE at h
  split at h
  · exact Option.noConfusion h
  · exact ⟨Nat.le_of_not_lt (by assumption), (Option.some.inj h).symm⟩

theorem readBE_take_lt {c j : Nat} (bs : List Nat) (h : j < c) :
    readBE c (bs.take j) = none := by
  unfold readBE
  rw [if_pos]
  calc (bs.take j).length ≤ j := by simp [List.length_take]
    _ < c := h

theorem readBE_stab {c : Nat} {bs : List Nat} (h : c ≤ bs.length) (ext : List Nat) :
    readBE c (bs.take c ++ ext) = some (beval (bs.take c)) := by
  have hl : (bs.take c).length = c := by simp [List.length_take]; omega
  unfold readBE
  rw [if_neg (by simp [List.length_append, hl]), List.take_left' hl]

theorem getCount_some {src : CountSrc} {r : List Nat} {n c : Nat}
    (h : getCount src r = some (n, c)) :
    c ≤ r.length ∧ (∀ j, j < c → getCount src (r.take j) = none) ∧
    (∀ ext, getCount src (r.take c ++ ext) = some (n, c)) := by
  cases src with
  | lit n' =>
    obtain ⟨hn, hc⟩ := Prod.mk.injEq .. ▸ Option.some.inj h
    subst hn; subst hc
    exact ⟨Nat.zero_le _, fun j hj => absurd hj (Nat.not_lt_zero j), fun ext => rfl⟩
  | be c' =>
    cases hrb : readBE c' r with
    | none =>
      rw [show getCount (.be c') r = none from by simp only [getCount, hrb]] at h
      exact Option.noConfusion h
    | some v =>
      rw [show getCount (.be c') r = some (v, c') from by simp only [getCount, hrb]] at h
      obtain ⟨hn, hc⟩ := Prod.mk.injEq .. ▸ Option.some.inj h
      subst hn; subst hc
      obtain ⟨hle, hv⟩ := readBE_some hrb
      refine ⟨hle, fun j hj => ?_, fun ext => ?_⟩
      · simp only [getCount, readBE_take_lt r hj]
      · simp only [getCount, readBE_stab hle ext, ← hv]

/-- The element-sequence facts follow from the single-object facts at
the same fuel, by induction on the element count. -/
theorem runOkFacts_of_parseOkFacts (f : Nat) (hP : ParseOkFacts f) : RunOkFacts f := by
  intro m
  induction m with
  | zero =>
    intro bs l k h
    simp only [runN, PNResult.ok.injEq] at h
    obtain ⟨hl, hk⟩ := h
    subst hl; subst hk
    exact ⟨Nat.zero_le _, fun n g hn => absurd hn (Nat.not_lt_zero n),
      fun ext g => Or.inl rfl⟩
  | succ m ih =>
    intro bs l k h
    cases hp : parse f bs with
    | more => simp only [runN, hp] at h; exact PNResult.noConfusion h
    | err => simp only [runN, hp] at h; exact PNResult.noConfusion h
    | ok mo k₁ =>
      cases hrun2 : runN (fun x => parse f x) m (bs.drop k₁) with
      | more => simp only [runN, hp, hrun2] at h; exact PNResult.noConfusion h
      | err => simp only [runN, hp, hrun2] at h; exact PNResult.noConfusion h
      | ok l' k₂ =>
        simp only [runN, hp, hrun2, PNResult.ok.injEq] at h
        obtain ⟨hl, hk⟩ := h
        subst hl; subst hk
        obtain ⟨hk1a, hk1b, htr1, hst1⟩ := hP bs mo k₁ hp
        obtain ⟨hk2, htr2, hst2⟩ := ih (bs.drop k₁) l' k₂ hrun2
        have hk2' : k₂ ≤ bs.length - k₁ := by simpa [List.length_drop] using hk2
        refine ⟨by omega, ?_, ?_⟩
        · intro n g hn
          by_cases hcase : n < k₁
          · have hmore := htr1 n g hcase
            simp only [runN, hmore]
          · push_neg at hcase
            have hdecomp : bs.take n = bs.take k₁ ++ (bs.drop k₁).take (n - k₁) := by
              rw [← List.take_add]; congr 1; omega
            have hstab := hst1 ((bs.drop k₁).take (n - k₁)) g
            rw [← hdecomp] at hstab
            cases hstab with
            | inr hmore => simp only [runN, hmore]
            | inl hok =>
              have hdt : (bs.take n).drop k₁ = (bs.drop k₁).take (n - k₁) :=
                List.drop_take ..
              have hmore2 := htr2 (n - k₁) g (by omega)
              simp only [runN, hok, hdt, hmore2]
        · intro ext g
          have hdecomp : bs.take (k₁ + k₂) = bs.take k₁ ++ (bs.drop k₁).take k₂ := by
            rw [← List.take_add]
          rw [hdecomp, List.append_assoc]
          have hstab1 := hst1 ((bs.drop k₁).take k₂ ++ ext) g
          have hdropc : (bs.take k₁ ++ ((bs.drop k₁).take k₂ ++ ext)).drop k₁
              = (bs.drop k₁).take k₂ ++ ext :=
            List.drop_left' (by simp [List.length_take]; omega)
          cases hstab1 with
          | inr hmore => right; simp only [runN, hmore]
          | inl hok =>
            cases hst2 ext g with
            | inl hok2 => left; simp only [runN, hok, hdropc, hok2]
            | inr hmore2 => right; simp only [runN, hok, hdropc, hmore2]

/-- The single-object facts at fuel `f + 1`, from the sequence facts at
fuel `f`. -/
theorem parseOkFacts_succ (f : Nat) (ihR : RunOkFacts f) : ParseOkFacts (f + 1) := by
  intro bs mo k h
  match bs with
  | [] => exact PResult.noConfusion h
  | b :: r =>
  cases htag : tagOf b with
  | imm mo' =>
    simp only [parse_succ_cons, htag, PResult.ok.injEq] at h
    obtain ⟨hmo, hk⟩ := h
    subst hk; subst hmo
    refine ⟨le_refl 1, by simp, ?_, ?_⟩
    · intro n g hn
      have hn0 : n = 0 := by omega
      subst hn0
      simpa using parse_nil_eq g
    · intro ext g
      have htk : (b :: r).take 1 ++ ext = b :: ext := rfl
      rw [htk]
      cases g with
      | zero => right; rfl
      | succ g' =>
        left
        simp only [parse_succ_cons, htag]
  | fixed c mk =>
    simp only [parse_succ_cons, htag] at h
    cases hrb : readBE c r with
    | none => simp only [finFixed, hrb] at h; exact PResult.noConfusion h
    | some v =>
      simp only [finFixed, hrb, PResult.ok.injEq] at h
      obtain ⟨hmo, hk⟩ := h
      subst hk; subst hmo
      obtain ⟨hcle, hv⟩ := readBE_some hrb
      refine ⟨by omega, by simp only [List.length_cons]; omega, ?_, ?_⟩
      · intro n g hn
        cases n with
        | zero => simpa using parse_nil_eq g
        | succ j =>
          rw [List.take_succ_cons]
          cases g with
          | zero => rfl
          | succ g' =>
            simp only [parse_succ_cons, htag, finFixed,
              readBE_take_lt r (show j < c by omega)]
      · intro ext g
        have htk : (b :: r).take (1 + c) ++ ext = b :: (r.take c ++ ext) := by
          rw [show 1 + c = c + 1 by omega, List.take_succ_cons, List.cons_append]
        rw [htk]
        cases g with
        | zero => right; rfl
        | succ g' =>
          left
          simp only [parse_succ_cons, htag, finFixed, readBE_stab hcle ext]
          rw [← hv]
  | rawC src =>
    simp only [parse_succ_cons, htag] at h
    cases hgc : getCount src r with
    | none => rw [hgc] at h; exact PResult.noConfusion h
    | some nc =>
      obtain ⟨n, c⟩ := nc
      rw [hgc] at h
      by_cases hlen : (r.drop c).length < n
      · simp only [finRaw, if_pos hlen] at h; exact PResult.noConfusion h
      · simp only [finRaw, if_neg hlen, PResult.ok.injEq] at h
        obtain ⟨hmo, hk⟩ := h
        subst hk; subst hmo
        push_neg at hlen
        obtain ⟨hcle, hgtr, hgst⟩ := getCount_some hgc
        have hnle : n ≤ r.length - c := by simpa [List.length_drop] using hlen
        refine ⟨by omega, by simp only [List.length_cons]; omega, ?_, ?_⟩
        · intro n' g hn'
          cases n' with
          | zero => simpa using parse_nil_eq g
          | succ j =>
            rw [List.take_succ_cons]
            cases g with
            | zero => rfl
            | succ g' =>
              by_cases hj : j < c
              · simp only [parse_succ_cons, htag, hgtr j hj]
              · push_neg at hj
                have hdecomp : r.take j = r.take c ++ (r.drop c).take (j - c) := by
                  rw [← List.take_add]; congr 1; omega
                have hgets := hgst ((r.drop c).take (j - c))
                rw [← hdecomp] at hgets
                have hlt : ((r.take j).drop c).length < n := by
                  rw [List.drop_take]
                  simp only [List.length_take, List.length_drop]
                  omega
                simp only [parse_succ_cons, htag, hgets, finRaw, if_pos hlt]
        · intro ext g
          have htk : (b :: r).take (1 + c + n) ++ ext
              = b :: (r.take c ++ ((r.drop c).take n ++ ext)) := by
            rw [show 1 + c + n = (c + n) + 1 by omega, List.take_succ_cons,
              List.take_add, List.cons_append, List.append_assoc]
          rw [htk]
          cases g with
          | zero => right; rfl
          | succ g' =>
            left
            have hgets := hgst ((r.drop c).take n ++ ext)
            have hdropc : (r.take c ++ ((r.drop c).take n ++ ext)).drop c
                = (r.drop c).take n ++ ext :=
              List.drop_left' (by simp [List.length_take]; omega)
            have hnotlt : ¬ ((r.drop c).take n ++ ext).length < n := by
              simp only [List.length_append, List.length_take, List.length_drop]
              omega
            have htake : ((r.drop c).take n ++ ext).take n = (r.drop c).take n :=
              List.take_left' (by simp [List.length_take, List.length_drop]; omega)
            simp only [parse_succ_cons, htag, hgets, finRaw, hdropc, if_neg hnotlt, htake]
  | arrC src =>
    simp only [parse_succ_cons, htag] at h
    cases hgc : getCount src r with
    | none => rw [hgc] at h; exact PResult.noConfusion h
    | some nc =>
      obtain ⟨n, c⟩ := nc
      rw [hgc] at h
      cases hrun : runN (fun x => parse f x) n (r.drop c) with
      | more => simp only [finSeq, hrun] at h; exact PResult.noConfusion h
      | err => simp only [finSeq, hrun] at h; exact PResult.noConfusion h
      | ok l k₂ =>
        simp only [finSeq, hrun, PResult.ok.injEq] at h
        obtain ⟨hmo, hk⟩ := h
        subst hk; subst hmo
        obtain ⟨hcle, hgtr, hgst⟩ := getCount_some hgc
        obtain ⟨hk2le, htr2, hst2⟩ := ihR n (r.drop c) l k₂ hrun
        have hk2' : k₂ ≤ r.length - c := by simpa [List.length_drop] using hk2le
        refine ⟨by omega, by simp only [List.length_cons]; omega, ?_, ?_⟩
        · intro n' g hn'
          cases n' with
          | zero => simpa using parse_nil_eq g
          | succ j =>
            rw [List.take_succ_cons]
            cases g with
            | zero => rfl
            | succ g' =>
              by_cases hj : j < c
              · simp only [parse_succ_cons, htag, hgtr j hj]
              · push_neg at hj
                have hdecomp : r.take j = r.take c ++ (r.drop c).take (j - c) := by
                  rw [← List.take_add]; congr 1; omega
                have hgets := hgst ((r.drop c).take (j - c))
                rw [← hdecomp] at hgets
                have hdt : (r.take j).drop c = (r.drop c).take (j - c) :=
                  List.drop_take ..
                have hmore2 := htr2 (j - c) g' (by omega)
                simp only [parse_succ_cons, htag, hgets, hdt, hmore2, finSeq]
        · intro ext g
          have htk : (b :: r).take (1 + c + k₂) ++ ext
              = b :: (r.take c ++ ((r.drop c).take k₂ ++ ext)) := by
            rw [show 1 + c + k₂ = (c + k₂) + 1 by omega, List.take_succ_cons,
              List.take_add, List.cons_append, List.append_assoc]
          rw [htk]
          cases g with
          | zero => right; rfl
          | succ g' =>
            have hgets := hgst ((r.drop c).take k₂ ++ ext)
            have hdropc : (r.take c ++ ((r.drop c).take k₂ ++ ext)).drop c
                = (r.drop c).take k₂ ++ ext :=
              List.drop_left' (by simp [List.length_take]; omega)
            cases hst2 ext g' with
            | inl hok2 =>
              left
              simp only [parse_succ_cons, htag, hgets, hdropc, hok2, finSeq]
            | inr hmore2 =>
              right
              simp only [parse_succ_cons, htag, hgets, hdropc, hmore2, finSeq]
  | mapC src =>
    simp only [parse_succ_cons, htag] at h
    cases hgc : getCount src r with
    | none => rw [hgc] at h; exact PResult.noConfusion h
    | some nc =>
      obtain ⟨n, c⟩ := nc
      rw [hgc] at h
      cases hrun : runN (fun x => parse f x) (2 * n) (r.drop c) with
      | more => simp only [finSeq, hrun] at h; exact PResult.noConfusion h
      | err => simp only [finSeq, hrun] at h; exact PResult.noConfusion h
      | ok l k₂ =>
        simp only [finSeq, hrun, PResult.ok.injEq] at h
        obtain ⟨hmo, hk⟩ := h
        subst hk; subst hmo
        obtain ⟨hcle, hgtr, hgst⟩ := getCount_some hgc
        obtain ⟨hk2le, htr2, hst2⟩ := ihR (2 * n) (r.drop c) l k₂ hrun
        have hk2' : k₂ ≤ r.length - c := by simpa [List.length_drop] using hk2le
        refine ⟨by omega, by simp only [List.length_cons]; omega, ?_, ?_⟩
        · intro n' g hn'
          cases n' with
          | zero => simpa using parse_nil_eq g
          | succ j =>
            rw [List.take_succ_cons]
            cases g with
            | zero => rfl
            | succ g' =>
              by_cases hj : j < c
              · simp only [parse_succ_cons, htag, hgtr j hj]
              · push_neg at hj
                have hdecomp : r.take j = r.take c ++ (r.drop c).take (j - c) := by
                  rw [← List.take_add]; congr 1; omega
                have hgets := hgst ((r.drop c).take (j - c))
                rw [← hdecomp] at hgets
                have hdt : (r.take j).drop c = (r.drop c).take (j - c) :=
                  List.drop_take ..
                have hmore2 := htr2 (j - c) g' (by omega)
                simp only [parse_succ_cons, htag, hgets, hdt, hmore2, finSeq]
        · intro ext g
          have htk : (b :: r).take (1 + c + k₂) ++ ext
              = b :: (r.take c ++ ((r.drop c).take k₂ ++ ext)) := by
            rw [show 1 + c + k₂ = (c + k₂) + 1 by omega, List.take_succ_cons,
              List.take_add, List.cons_append, List.append_assoc]
          rw [htk]
          cases g with
          | zero => right; rfl
          | succ g' =>
            have hgets := hgst ((r.drop c).take k₂ ++ ext)
            have hdropc : (r.take c ++ ((r.drop c).take k₂ ++ ext)).drop c
                = (r.drop c).take k₂ ++ ext :=
              List.drop_left' (by simp [List.length_take]; omega)
            cases hst2 ext g' with
            | inl hok2 =>
              left
              simp only [parse_succ_cons, htag, hgets, hdropc, hok2, finSeq]
            | inr hmore2 =>
              right
              simp only [parse_succ_cons, htag, hgets, hdropc, hmore2, finSeq]
  | bad =>
    simp only [parse_succ_cons, htag] at h
    exact PResult.noConfusion h

/-- Every fuel satisfies both fact collections. -/
theorem parse_prefix_all : ∀ f, ParseOkFacts f ∧ RunOkFacts f := by
  intro f
  induction f with
  | zero =>
    have hP : ParseOkFacts 0 := fun bs mo k h => PResult.noConfusion h
    exact ⟨hP, runOkFacts_of_parseOkFacts 0 hP⟩
  | succ f ih =>
    have hP := parseOkFacts_succ f ih.2
    exact ⟨hP, runOkFacts_of_parseOkFacts (f + 1) hP⟩

/-! ## Byte-string lemmas -/

theorem beBytes_length (w : Nat) : ∀ v, (beBytes w v).length = w := by
  induction w with
  | zero => intro v; rfl
  | succ w ih => intro v; simp [beBytes, ih]

theorem beval_append_singleton (l : List Nat) (b : Nat) :
    beval (l ++ [b]) = beval l * 256 + b := by
  unfold beval
  rw [List.foldl_append]
  rfl

theorem beval_beBytes (w : Nat) : ∀ v, beval (beBytes w v) = v % 2 ^ (8 * w) := by
  induction w with
  | zero => intro v; simp [beBytes, beval, Nat.mod_one]
  | succ w ih =>
    intro v
    rw [beBytes, beval_append_singleton, ih]
    have h1 : (2 : Nat) ^ (8 * (w + 1)) = 256 * 2 ^ (8 * w) := by
      rw [Nat.mul_succ, pow_add]
      ring
    rw [h1, Nat.mod_mul]
    omega

theorem readBE_beBytes (w v : Nat) (rest : List Nat) (h : v < 2 ^ (8 * w)) :
    readBE w (beBytes w v ++ rest) = some v := by
  unfold readBE
  rw [if_neg (by simp [beBytes_length]), List.take_left' (beBytes_length w v),
    beval_beBytes, Nat.mod_eq_of_lt h]

theorem drop_beBytes (w v : Nat) (rest : List Nat) :
    (beBytes w v ++ rest).drop w = rest :=
  List.drop_left' (beBytes_length w v)

theorem readBE_one_cons (b : Nat) (rest : List Nat) : readBE 1 (b :: rest) = some b := by
  simp [readBE, beval]

/-! ## Tag-table lemmas -/

theorem tagOf_fixint {b : Nat} (h : b ≤ 0x7f) : tagOf b = .imm (.posInt b) := by
  unfold tagOf
  rw [if_pos h]

theorem tagOf_fixmap {n : Nat} (h : n ≤ 15) : tagOf (0x80 + n) = .mapC (.lit n) := by
  interval_cases n <;> rfl

theorem tagOf_fixarray {n : Nat} (h : n ≤ 15) : tagOf (0x90 + n) = .arrC (.lit n) := by
  interval_cases n <;> rfl

theorem tagOf_fixraw {n : Nat} (h : n ≤ 31) : tagOf (0xa0 + n) = .rawC (.lit n) := by
  interval_cases n <;> rfl

theorem tagOf_fixneg {b : Nat} (h1 : 0xe0 ≤ b) (h2 : b ≤ 0xff) :
    tagOf b = .imm (.negInt ((b : Int) - 256)) := by
  interval_cases b <;> rfl

/-! ## Integer wire encodings parse back -/

theorem parse_packUint {u : Nat} (hu : u < 2 ^ 64) (rest : List Nat) (f : Nat) :
    parse (f + 1) (packUint u ++ rest) = .ok (.posInt u) (packUint u).length := by
  unfold packUint
  split_ifs with h1 h2 h3 h4
  · rw [List.singleton_append, parse_succ_cons]
    simp only [tagOf_fixint h1, List.length_singleton]
  · simp only [List.cons_append, List.nil_append]
    rw [parse_succ_cons]
    simp only [show tagOf 0xcc = .fixed 1 .posInt from rfl, finFixed, readBE_one_cons]
    norm_num
  · rw [List.cons_append, parse_succ_cons]
    simp only [show tagOf 0xcd = .fixed 2 .posInt from rfl, finFixed,
      readBE_beBytes 2 u rest (by omega), List.length_cons, beBytes_length]
  · rw [List.cons_append, parse_succ_cons]
    simp only [show tagOf 0xce = .fixed 4 .posInt from rfl, finFixed,
      readBE_beBytes 4 u rest (by omega), List.length_cons, beBytes_length]
  · rw [List.cons_append, parse_succ_cons]
    simp only [show tagOf 0xcf = .fixed 8 .posInt from rfl, finFixed,
      readBE_beBytes 8 u rest (by omega), List.length_cons, beBytes_length]

theorem parse_packInt {i : Int} (hlo : -(2 ^ 63) ≤ i) (hhi : i < 2 ^ 63)
    (rest : List Nat) (f : Nat) :
    parse (f + 1) (packInt i ++ rest) =
      .ok (if 0 ≤ i then .posInt i.toNat else .negInt i) (packInt i).length := by
  unfold packInt
  split_ifs with h1 h2 h3 h4 h5
  · exact parse_packUint (by omega) rest f
  · rw [List.singleton_append, parse_succ_cons]
    have hb1 : 0xe0 ≤ (i + 256).toNat := by omega
    have hb2 : (i + 256).toNat ≤ 0xff := by omega
    simp only [tagOf_fixneg hb1 hb2, List.length_singleton, PResult.ok.injEq,
      MsgObject.negInt.injEq, and_true]
    omega
  · simp only [List.cons_append, List.nil_append]
    rw [parse_succ_cons]
    simp only [show tagOf 0xd0 = .fixed 1 (sgnNode 8) from rfl, finFixed, readBE_one_cons,
      sgnNode]
    rw [if_neg (by omega)]
    simp only [List.length_cons, List.length_singleton, List.length_nil, PResult.ok.injEq,
      MsgObject.negInt.injEq, and_true]
    omega
  · rw [List.cons_append, parse_succ_cons]
    simp only [show tagOf 0xd1 = .fixed 2 (sgnNode 16) from rfl, finFixed,
      readBE_beBytes 2 (i + 2 ^ 16).toNat rest (by omega), sgnNode]
    rw [if_neg (by omega)]
    simp only [List.length_cons, beBytes_length, PResult.ok.injEq, MsgObject.negInt.injEq,
      and_true]
    omega
  · rw [List.cons_append, parse_succ_cons]
    simp only [show tagOf 0xd2 = .fixed 4 (sgnNode 32) from rfl, finFixed,
      readBE_beBytes 4 (i + 2 ^ 32).toNat rest (by omega), sgnNode]
    rw [if_neg (by omega)]
    simp only [List.length_cons, beBytes_length, PResult.ok.injEq, MsgObject.negInt.injEq,
      and_true]
    omega
  · rw [List.cons_append, parse_succ_cons]
    simp only [show tagOf 0xd3 = .fixed 8 (sgnNode 64) from rfl, finFixed,
      readBE_beBytes 8 (i + 2 ^ 64).toNat rest (by omega), sgnNode]
    rw [if_neg (by omega)]
    simp only [List.length_cons, beBytes_length, PResult.ok.injEq, MsgObject.negInt.injEq,
      and_true]
    omega

theorem f64bits_lt (q : ℚ) : f64bits q < 2 ^ 64 := by
  unfold f64bits
  dsimp only
  split
  · norm_num
  · split_ifs <;> omega

theorem parse_packDouble (q : ℚ) (rest : List Nat) (f : Nat) :
    parse (f + 1) ((0xcb :: beBytes 8 (f64bits q)) ++ rest) =
      .ok (.double (f64ofBits (f64bits q))) 9 := by
  rw [List.cons_append, parse_succ_cons]
  simp only [show tagOf 0xcb = .fixed 8 (fun v => .double (f64ofBits v)) from rfl, finFixed,
    readBE_beBytes 8 (f64bits q) rest (by norm_num; exact f64bits_lt q)]

theorem pairUp_flattenP : ∀ l : List (MsgObject × MsgObject), pairUp (flattenP l) = l := by
  intro l
  induction l with
  | nil => rfl
  | cons kv tl ih =>
    obtain ⟨k, v⟩ := kv
    simp [flattenP, pairUp, ih]

/-! ## Serializing then parsing returns the normalized node -/

mutual
/-- Parsing the serialization of a well-formed node (with anything
appended) succeeds, consumes exactly the serialization, and returns the
normalized node. -/
theorem packObj_parse : ∀ (mo : MsgObject), wfNode mo = true →
    ∀ (rest : List Nat) (f : Nat), nodeDepth mo < f →
    parse f (packObj mo ++ rest) = .ok (normObj mo) (packObj mo).length
  | .nil => fun _ rest f hd => by
    cases f with
    | zero => exact absurd hd (Nat.not_lt_zero _)
    | succ f' =>
      simp only [packObj, List.cons_append, List.nil_append]
      rw [parse_succ_cons]
      simp only [show tagOf 0xc0 = .imm .nil from rfl, normObj, List.length_cons,
        List.length_nil]
  | .boolean b => fun _ rest f hd => by
    cases f with
    | zero => exact absurd hd (Nat.not_lt_zero _)
    | succ f' =>
      cases b with
      | false =>
        simp only [packObj, List.cons_append, List.nil_append]
        rw [parse_succ_cons]
        simp only [show tagOf 0xc2 = .imm (.boolean false) from rfl, normObj,
          List.length_cons, List.length_nil]
      | true =>
        simp only [packObj, List.cons_append, List.nil_append]
        rw [parse_succ_cons]
        simp only [show tagOf 0xc3 = .imm (.boolean true) from rfl, normObj,
          List.length_cons, List.length_nil]
  | .posInt u => fun hwf rest f hd => by
    cases f with
    | zero => exact absurd hd (Nat.not_lt_zero _)
    | succ f' =>
      simp only [wfNode, decide_eq_true_eq] at hwf
      simp only [packObj, normObj]
      exact parse_packUint hwf rest f'
  | .negInt i => fun hwf rest f hd => by
    cases f with
    | zero => exact absurd hd (Nat.not_lt_zero _)
    | succ f' =>
      simp only [wfNode, Bool.and_eq_true, decide_eq_true_eq] at hwf
      simp only [packObj, normObj]
      exact parse_packInt hwf.1 hwf.2 rest f'
  | .double d => fun _ rest f hd => by
    cases f with
    | zero => exact absurd hd (Nat.not_lt_zero _)
    | succ f' =>
      simp only [packObj, normObj]
      rw [parse_packDouble d rest f']
      simp [beBytes_length]
  | .raw s => fun hwf rest f hd => by
    cases f with
    | zero => exact absurd hd (Nat.not_lt_zero _)
    | succ f' =>
      simp only [wfNode, decide_eq_true_eq] at hwf
      simp only [packObj, normObj, rawHeader]
      have hnl : ¬ s.length + rest.length < s.length := by omega
      split_ifs with h1 h2
      · simp only [List.singleton_append, List.cons_append, List.nil_append]
        rw [parse_succ_cons]
        simp only [tagOf_fixraw h1, getCount, List.drop_zero, finRaw, if_neg hnl,
          List.take_left, List.length_cons, List.length_append, PResult.ok.injEq]
        all_goals first | trivial | omega | exact ⟨trivial, by omega⟩ | exact ⟨by omega, trivial⟩ | exact ⟨trivial, by omega⟩ | exact ⟨by omega, trivial⟩
      · simp only [List.cons_append, List.append_assoc]
        rw [parse_succ_cons]
        simp only [show tagOf 0xda = .rawC (.be 2) from rfl, getCount,
          readBE_beBytes 2 s.length (s ++ rest) (by omega), drop_beBytes, finRaw,
          if_neg hnl, List.take_left, List.length_cons, List.length_append,
          beBytes_length, PResult.ok.injEq]
        all_goals first | trivial | omega | exact ⟨trivial, by omega⟩ | exact ⟨by omega, trivial⟩ | exact ⟨trivial, by omega⟩ | exact ⟨by omega, trivial⟩
      · simp only [List.cons_append, List.append_assoc]
        rw [parse_succ_cons]
        simp only [show tagOf 0xdb = .rawC (.be 4) from rfl, getCount,
          readBE_beBytes 4 s.length (s ++ rest) (by omega), drop_beBytes, finRaw,
          if_neg hnl, List.take_left, List.length_cons, List.length_append,
          beBytes_length, PResult.ok.injEq]
        all_goals first | trivial | omega | exact ⟨trivial, by omega⟩ | exact ⟨by omega, trivial⟩ | exact ⟨trivial, by omega⟩ | exact ⟨by omega, trivial⟩
  | .array l => fun hwf rest f hd => by
    cases f with
    | zero => exact absurd hd (Nat.not_lt_zero _)
    | succ f' =>
      simp only [wfNode, Bool.and_eq_true, decide_eq_true_eq] at hwf
      have hdl : depthList l < f' := by
        simp only [nodeDepth] at hd
        omega
      simp only [packObj, normObj, arrayHeader]
      split_ifs with h1 h2
      · simp only [List.singleton_append, List.cons_append, List.nil_append]
        rw [parse_succ_cons]
        simp only [tagOf_fixarray h1, getCount, List.drop_zero,
          packList_parse l hwf.2 rest f' hdl, finSeq, List.length_cons,
          List.length_append, PResult.ok.injEq]
        all_goals first | trivial | omega | exact ⟨trivial, by omega⟩ | exact ⟨by omega, trivial⟩ | exact ⟨trivial, by omega⟩ | exact ⟨by omega, trivial⟩
      · simp only [List.cons_append, List.append_assoc]
        rw [parse_succ_cons]
        simp only [show tagOf 0xdc = .arrC (.be 2) from rfl, getCount,
          readBE_beBytes 2 l.length (packList l ++ rest) (by omega), drop_beBytes,
          packList_parse l hwf.2 rest f' hdl, finSeq, List.length_cons,
          List.length_append, beBytes_length, PResult.ok.injEq]
        all_goals first | trivial | omega | exact ⟨trivial, by omega⟩ | exact ⟨by omega, trivial⟩ | exact ⟨trivial, by omega⟩ | exact ⟨by omega, trivial⟩
      · simp only [List.cons_append, List.append_assoc]
        rw [parse_succ_cons]
        simp only [show tagOf 0xdd = .arrC (.be 4) from rfl, getCount,
          readBE_beBytes 4 l.length (packList l ++ rest) (by omega), drop_beBytes,
          packList_parse l hwf.2 rest f' hdl, finSeq, List.length_cons,
          List.length_append, beBytes_length, PResult.ok.injEq]
        all_goals first | trivial | omega | exact ⟨trivial, by omega⟩ | exact ⟨by omega, trivial⟩ | exact ⟨trivial, by omega⟩ | exact ⟨by omega, trivial⟩
  | .map l => fun hwf rest f hd => by
    cases f with
    | zero => exact absurd hd (Nat.not_lt_zero _)
    | succ f' =>
      simp only [wfNode, Bool.and_eq_true, decide_eq_true_eq] at hwf
      have hdl : depthPairs l < f' := by
        simp only [nodeDepth] at hd
        omega
      simp only [packObj, normObj, mapHeader]
      split_ifs with h1 h2
      · simp only [List.singleton_append, List.cons_append, List.nil_append]
        rw [parse_succ_cons]
        simp only [tagOf_fixmap h1, getCount, List.drop_zero,
          packPairs_parse l hwf.2 rest f' hdl, finSeq, pairUp_flattenP,
          List.length_cons, List.length_append, PResult.ok.injEq]
        all_goals first | trivial | omega | exact ⟨trivial, by omega⟩ | exact ⟨by omega, trivial⟩ | exact ⟨trivial, by omega⟩ | exact ⟨by omega, trivial⟩
      · simp only [List.cons_append, List.append_assoc]
        rw [parse_succ_cons]
        simp only [show tagOf 0xde = .mapC (.be 2) from rfl, getCount,
          readBE_beBytes 2 l.length (packPairs l ++ rest) (by omega), drop_beBytes,
          packPairs_parse l hwf.2 rest f' hdl, finSeq, pairUp_flattenP,
          List.length_cons, List.length_append, beBytes_length, PResult.ok.injEq]
        all_goals first | trivial | omega | exact ⟨trivial, by omega⟩ | exact ⟨by omega, trivial⟩ | exact ⟨trivial, by omega⟩ | exact ⟨by omega, trivial⟩
      · simp only [List.cons_append, List.append_assoc]
        rw [parse_succ_cons]
        simp only [show tagOf 0xdf = .mapC (.be 4) from rfl, getCount,
          readBE_beBytes 4 l.length (packPairs l ++ rest) (by omega), drop_beBytes,
          packPairs_parse l hwf.2 rest f' hdl, finSeq, pairUp_flattenP,
          List.length_cons, List.length_append, beBytes_length, PResult.ok.injEq]
        all_goals first | trivial | omega | exact ⟨trivial, by omega⟩ | exact ⟨by omega, trivial⟩ | exact ⟨trivial, by omega⟩ | exact ⟨by omega, trivial⟩

/-- Parsing the concatenated serializations of a well-formed node list
(with anything appended) returns the normalized nodes. -/
theorem packList_parse : ∀ (l : List MsgObject), wfList l = true →
    ∀ (rest : List Nat) (f : Nat), depthList l < f →
    runN (fun x => parse f x) l.length (packList l ++ rest) =
      .ok (normList l) (packList l).length
  | [] => fun _ rest f _ => by
    simp only [List.length_nil, packList, List.nil_append, runN, normList]
  | mo :: tl => fun hwf rest f hd => by
    simp only [wfList, Bool.and_eq_true] at hwf
    simp only [depthList, Nat.max_lt] at hd
    simp only [List.length_cons, packList, List.append_assoc]
    simp only [runN, packObj_parse mo hwf.1 (packList tl ++ rest) f hd.1,
      List.drop_left, packList_parse tl hwf.2 rest f hd.2, normList,
      List.length_append]

/-- Parsing `2 * n` objects off the concatenated serializations of `n`
well-formed key/value pairs returns the interleaved normalized
objects. -/
theorem packPairs_parse : ∀ (l : List (MsgObject × MsgObject)), wfPairs l = true →
    ∀ (rest : List Nat) (f : Nat), depthPairs l < f →
    runN (fun x => parse f x) (2 * l.length) (packPairs l ++ rest) =
      .ok (flattenP (normPairs l)) (packPairs l).length
  | [] => fun _ rest f _ => by
    simp only [List.length_nil, Nat.mul_zero, packPairs, List.nil_append, runN,
      normPairs, flattenP]
  | (k, v) :: tl => fun hwf rest f hd => by
    simp only [wfPairs, Bool.and_eq_true] at hwf
    obtain ⟨⟨hwk, hwv⟩, hwtl⟩ := hwf
    simp only [depthPairs, Nat.max_lt] at hd
    simp only [List.length_cons, packPairs, List.append_assoc]
    rw [show 2 * (tl.length + 1) = (2 * tl.length + 1) + 1 by omega]
    simp only [runN, packObj_parse k hwk (packObj v ++ (packPairs tl ++ rest)) f hd.1.1,
      packObj_parse v hwv (packPairs tl ++ rest) f hd.1.2, List.drop_left,
      packPairs_parse tl hwtl rest f hd.2, normPairs, flattenP, List.length_append,
      PNResult.ok.injEq]
    all_goals first | trivial | omega | exact ⟨trivial, by omega⟩ | exact ⟨by omega, trivial⟩
end

/-! ## The float64 codec is exact on representable numbers -/

theorem f64ofBits_f64bits {q : ℚ} (h : repF64 q = true) : f64ofBits (f64bits q) = q := by
  simp only [repF64, Bool.and_eq_true, Bool.or_eq_true, bne_iff_ne, ne_eq, beq_iff_eq,
    decide_eq_true_eq] at h
  obtain ⟨⟨⟨⟨hq0, hden⟩, hprec⟩, he1⟩, he2⟩ := h
  set n := q.num.natAbs with hn
  set sh := Nat.log 2 q.den with hsh
  set L := Nat.log 2 n with hL
  have hn0 : n ≠ 0 := by
    rw [hn]
    simp only [ne_eq, Int.natAbs_eq_zero, Rat.num_eq_zero]
    exact hq0
  have hL1 : 2 ^ L ≤ n := Nat.pow_log_le_self 2 hn0
  have hL2 : n < 2 ^ (L + 1) := Nat.lt_pow_succ_log_self (by norm_num) n
  set m : Nat := if L ≤ 52 then n * 2 ^ (52 - L) else n / 2 ^ (L - 52) with hm
  have hm1 : 2 ^ 52 ≤ m := by
    rw [hm]
    split
    · next hc =>
      calc (2 : Nat) ^ 52 = 2 ^ L * 2 ^ (52 - L) := by
            rw [← pow_add]
            congr 1
            omega
        _ ≤ n * 2 ^ (52 - L) := Nat.mul_le_mul_right _ hL1
    · next hc =>
      rw [Nat.le_div_iff_mul_le (show 0 < 2 ^ (L - 52) by positivity)]
      calc (2 : Nat) ^ 52 * 2 ^ (L - 52) = 2 ^ L := by
            rw [← pow_add]
            congr 1
            omega
        _ ≤ n := hL1
  have hm2 : m < 2 ^ 53 := by
    rw [hm]
    split
    · next hc =>
      calc n * 2 ^ (52 - L) < 2 ^ (L + 1) * 2 ^ (52 - L) :=
            (Nat.mul_lt_mul_right (show 0 < 2 ^ (52 - L) by positivity)).mpr hL2
        _ = 2 ^ 53 := by
            rw [← pow_add]
            congr 1
            omega
    · next hc =>
      rw [Nat.div_lt_iff_lt_mul (show 0 < 2 ^ (L - 52) by positivity)]
      calc n < 2 ^ (L + 1) := hL2
        _ ≤ 2 ^ 53 * 2 ^ (L - 52) := by
            rw [← pow_add]
            exact Nat.pow_le_pow_right (by norm_num) (by omega)
  set E := (L + 1023 - sh) % 2048 with hE
  have hEeq : E = L + 1023 - sh := by
    rw [hE]
    exact Nat.mod_eq_of_lt (by omega)
  have hE1 : 1 ≤ E := by omega
  have hE2 : E ≤ 2046 := by omega
  have hbits : f64bits q =
      (if q < 0 then 1 else 0) * 2 ^ 63 + E * 2 ^ 52 + (m - 2 ^ 52) := by
    unfold f64bits
    rw [if_neg hq0]
    dsimp only
    rw [← hn, ← hsh, ← hL, ← hm, ← hE]
    omega
  set s : Nat := if q < 0 then 1 else 0 with hs
  have hsb : s ≤ 1 := by
    rw [hs]
    split <;> omega
  have hd1 : f64bits q / 2 ^ 63 % 2 = s := by
    rw [hbits]
    omega
  have hd2 : f64bits q / 2 ^ 52 % 2 ^ 11 = E := by
    rw [hbits]
    omega
  have hd3 : f64bits q % 2 ^ 52 = m - 2 ^ 52 := by
    rw [hbits]
    omega
  unfold f64ofBits
  rw [hd1, hd2, hd3, if_neg (by omega), if_neg (by omega)]
  rw [← Rat.mkRat_self q, Rat.mkRat_eq_iff (pow_ne_zero 1075 (by norm_num)) q.den_nz]
  have hnum : q.num = if q < 0 then -(n : Int) else (n : Int) := by
    have hnn := (Rat.num_nonneg (q := q))
    split
    · next hneg =>
      have : ¬ 0 ≤ q.num := by
        rw [hnn]
        exact not_le_of_lt hneg
      omega
    · next hpos =>
      have : 0 ≤ q.num := hnn.mpr (not_lt.mp hpos)
      omega
  have hcore : m * 2 ^ (E + sh) = n * 2 ^ 1075 := by
    by_cases hc : L ≤ 52
    · have hmm : m = n * 2 ^ (52 - L) := by
        rw [hm, if_pos hc]
      rw [hmm, mul_assoc, ← pow_add]
      congr 2
      omega
    · push_neg at hc
      have hdvd : 2 ^ (L - 52) ∣ n := hprec.resolve_left (by omega)
      have hmm : 2 ^ (L - 52) * m = n := by
        rw [hm, if_neg (by omega)]
        exact Nat.mul_div_cancel' hdvd
      have hexp : E + sh = L - 52 + 1075 := by omega
      calc m * 2 ^ (E + sh) = m * (2 ^ (L - 52) * 2 ^ 1075) := by
            rw [hexp, pow_add]
        _ = 2 ^ (L - 52) * m * 2 ^ 1075 := by ring
        _ = n * 2 ^ 1075 := by rw [hmm]
  have hcoreZ : (m : Int) * 2 ^ (E + sh) = (n : Int) * 2 ^ 1075 := by
    exact_mod_cast hcore
  have hmf : (4503599627370496 : Int) + ((m - 4503599627370496 : Nat) : Int) = (m : Int) := by
    omega
  have hpow : (m : Int) * (2 ^ E * 2 ^ sh) = (n : Int) * 2 ^ 1075 := by
    rw [← pow_add]
    exact hcoreZ
  rw [hnum, hden]
  push_cast
  by_cases hqneg : q < 0
  · have hs1 : s = 1 := by rw [hs, if_pos hqneg]
    rw [hs1, if_pos rfl, if_pos hqneg, hmf]
    linear_combination (-1 : Int) * hpow
  · have hs0 : s = 0 := by rw [hs, if_neg hqneg]
    rw [hs0, if_neg (by norm_num), if_neg hqneg, hmf]
    linear_combination hpow

/-! ## Depth is bounded by the encoded length -/

theorem rawHeader_length_pos (n : Nat) : 1 ≤ (rawHeader n).length := by
  unfold rawHeader
  split_ifs <;> simp [beBytes_length]

theorem arrayHeader_length_pos (n : Nat) : 1 ≤ (arrayHeader n).length := by
  unfold arrayHeader
  split_ifs <;> simp [beBytes_length]

theorem mapHeader_length_pos (n : Nat) : 1 ≤ (mapHeader n).length := by
  unfold mapHeader
  split_ifs <;> simp [beBytes_length]

mutual
theorem nodeDepth_le_packObj : ∀ mo : MsgObject, nodeDepth mo ≤ (packObj mo).length
  | .nil => Nat.zero_le _
  | .boolean b => by cases b <;> exact Nat.zero_le _
  | .posInt _ => Nat.zero_le _
  | .negInt _ => Nat.zero_le _
  | .double _ => Nat.zero_le _
  | .raw _ => Nat.zero_le _
  | .array l => by
    have h1 := depthList_le_packList l
    have h2 := arrayHeader_length_pos l.length
    simp only [nodeDepth, packObj, List.length_append]
    omega
  | .map l => by
    have h1 := depthPairs_le_packPairs l
    have h2 := mapHeader_length_pos l.length
    simp only [nodeDepth, packObj, List.length_append]
    omega

theorem depthList_le_packList : ∀ l : List MsgObject, depthList l ≤ (packList l).length
  | [] => Nat.zero_le _
  | mo :: tl => by
    have h1 := nodeDepth_le_packObj mo
    have h2 := depthList_le_packList tl
    simp only [depthList, packList, List.length_append]
    omega

theorem depthPairs_le_packPairs :
    ∀ l : List (MsgObject × MsgObject), depthPairs l ≤ (packPairs l).length
  | [] => Nat.zero_le _
  | (k, v) :: tl => by
    have h1 := nodeDepth_le_packObj k
    have h2 := nodeDepth_le_packObj v
    have h3 := depthPairs_le_packPairs tl
    simp only [depthPairs, packPairs, List.length_append]
    omega
end

/-! ## Round-trippable values produce well-formed nodes -/

theorem toNodeL_length : ∀ l : List JsValue, (toNodeL l).length = l.length := by
  intro l
  induction l with
  | nil => rfl
  | cons v vs ih => simp [toNodeL, ih]

theorem toNodeP_length : ∀ l : List (JsValue × JsValue), (toNodeP l).length = l.length := by
  intro l
  induction l with
  | nil => rfl
  | cons kv ps ih =>
    obtain ⟨k, v⟩ := kv
    simp [toNodeP, ih]

mutual
theorem rtOk_wfNode : ∀ (v : JsValue) (st : List Nat),
    rtOk st v = true → wfNode (toNode v) = true
  | .undef, st => fun h => absurd h (by simp [rtOk])
  | .null, _ => fun _ => rfl
  | .boolean _, _ => fun _ => rfl
  | .num q, st => fun h => by
    simp only [rtOk] at h
    unfold toNode
    split_ifs with h1 h2
    · rfl
    · simp only [hasFrac, bne_iff_ne, ne_eq, not_not] at h1
      rw [if_pos h1] at h
      simp only [Bool.or_eq_true, Bool.and_eq_true, decide_eq_true_eq] at h
      simp only [wfNode, decide_eq_true_eq]
      have hq : 0 < q.num := Rat.num_pos.mpr h2
      rcases h with ⟨_, hlt⟩ | ⟨_, hle⟩
      · omega
      · omega
    · simp only [hasFrac, bne_iff_ne, ne_eq, not_not] at h1
      rw [if_pos h1] at h
      simp only [Bool.or_eq_true, Bool.and_eq_true, decide_eq_true_eq] at h
      simp only [wfNode, Bool.and_eq_true, decide_eq_true_eq]
      have hq : ¬ 0 < q.num := fun hc => h2 (Rat.num_pos.mp hc)
      rcases h with ⟨hgt, _⟩ | ⟨hge, hle⟩
      · omega
      · constructor <;> omega
  | .str s, _ => fun h => by
    simp only [rtOk] at h
    simpa [toNode, wfNode] using h
  | .buf _, _ => fun h => absurd h (by simp [rtOk])
  | .arr id l, st => fun h => by
    simp only [rtOk, Bool.and_eq_true, decide_eq_true_eq] at h
    simp only [toNode, wfNode, Bool.and_eq_true, decide_eq_true_eq]
    exact ⟨by rw [toNodeL_length]; exact h.1.2, rtOkL_wfList l (id :: st) h.2⟩
  | .obj id ps, st => fun h => by
    simp only [rtOk, Bool.and_eq_true, decide_eq_true_eq] at h
    simp only [toNode, wfNode, Bool.and_eq_true, decide_eq_true_eq]
    exact ⟨by rw [toNodeP_length]; exact h.1.1.2, rtOkP_wfPairs ps (id :: st) h.2⟩

theorem rtOkL_wfList : ∀ (l : List JsValue) (st : List Nat),
    rtOkL st l = true → wfList (toNodeL l) = true
  | [], _ => fun _ => rfl
  | v :: vs, st => fun h => by
    simp only [rtOkL, Bool.and_eq_true] at h
    simp only [toNodeL, wfList, Bool.and_eq_true]
    exact ⟨rtOk_wfNode v st h.1, rtOkL_wfList vs st h.2⟩

theorem rtOkP_wfPairs : ∀ (l : List (JsValue × JsValue)) (st : List Nat),
    rtOkP st l = true → wfPairs (toNodeP l) = true
  | [], _ => fun _ => rfl
  | (k, v) :: ps, st => fun h => by
    simp only [rtOkP, Bool.and_eq_true] at h
    simp only [toNodeP, wfPairs, Bool.and_eq_true]
    exact ⟨⟨rtOk_wfNode k st h.1.1.2, rtOk_wfNode v st h.1.2⟩, rtOkP_wfPairs ps st h.2⟩
end

/-! ## On round-trippable values the cycle guard never fires -/

theorem contains_false_not_mem {st : List Nat} {id : Nat}
    (h : st.contains id = false) : id ∉ st := by
  simpa using h

mutual
theorem rtOk_v8_to_msgpack : ∀ (v : JsValue) (st : List Nat),
    rtOk st v = true → v8_to_msgpack v st = .ok (toNode v, st)
  | .undef, _ => fun h => absurd h (by simp [rtOk])
  | .null, _ => fun _ => rfl
  | .boolean _, _ => fun _ => rfl
  | .num q, _ => fun _ => by
    unfold v8_to_msgpack toNode
    split_ifs <;> rfl
  | .str _, _ => fun _ => rfl
  | .buf _, _ => fun h => absurd h (by simp [rtOk])
  | .arr id l, st => fun h => by
    simp only [rtOk, Bool.and_eq_true, Bool.not_eq_true'] at h
    have hmem : id ∉ st := contains_false_not_mem h.1.1
    simp only [v8_to_msgpack, mcEnter, if_neg hmem,
      rtOkL_v8List l (id :: st) h.2, toNode, List.tail_cons]
  | .obj id ps, st => fun h => by
    simp only [rtOk, Bool.and_eq_true, Bool.not_eq_true'] at h
    have hmem : id ∉ st := contains_false_not_mem h.1.1.1
    simp only [v8_to_msgpack, mcEnter, if_neg hmem,
      rtOkP_v8Pairs ps (id :: st) h.2, toNode, List.tail_cons]

theorem rtOkL_v8List : ∀ (l : List JsValue) (st : List Nat),
    rtOkL st l = true → v8ListToMsgpack l st = .ok (toNodeL l, st)
  | [], _ => fun _ => rfl
  | v :: vs, st => fun h => by
    simp only [rtOkL, Bool.and_eq_true] at h
    simp only [v8ListToMsgpack, rtOk_v8_to_msgpack v st h.1,
      rtOkL_v8List vs st h.2, toNodeL]

theorem rtOkP_v8Pairs : ∀ (l : List (JsValue × JsValue)) (st : List Nat),
    rtOkP st l = true → v8PairsToMsgpack l st = .ok (toNodeP l, st)
  | [], _ => fun _ => rfl
  | (k, v) :: ps, st => fun h => by
    simp only [rtOkP, Bool.and_eq_true] at h
    simp only [v8PairsToMsgpack, rtOk_v8_to_msgpack k st h.1.1.2,
      rtOk_v8_to_msgpack v st h.1.2, rtOkP_v8Pairs ps st h.2, toNodeP]
end

/-- `pack` on a single round-trippable argument: conversion succeeds
with an empty final guard stack and the buffer is the serialization of
the converted node. -/
theorem pack_single (v : JsValue) (h : rtOk [] v = true) :
    pack [v] = (.ok (packObj (toNode v)), []) := by
  simp only [pack, List.length_nil, packIter, rtOk_v8_to_msgpack v [] h,
    List.nil_append]

/-- Decoding the serialization of the node of a round-trippable value:
the full buffer is consumed and the normalized node is converted back
to a host value. -/
theorem unpack_packObj (v : JsValue) (br : Option Nat) (h : rtOk [] v = true) :
    unpack br (.buf (packObj (toNode v))) =
      (.value (msgpack_to_v8 (normObj (toNode v))), some 0) := by
  have hwf := rtOk_wfNode v [] h
  have hdepth : nodeDepth (toNode v) < (packObj (toNode v)).length + 1 :=
    Nat.lt_succ_of_le (nodeDepth_le_packObj _)
  have hparse := packObj_parse (toNode v) hwf [] ((packObj (toNode v)).length + 1) hdepth
  rw [List.append_nil] at hparse
  simp only [unpack, msgpack_unpack, hparse, Nat.sub_self]

/-! ## Object reconstruction with distinct keys is the identity -/

theorem setProp_append : ∀ (acc : List (JsValue × JsValue)) (k v : JsValue),
    (∀ kv ∈ acc, jsEqv kv.1 k = false) → setProp acc k v = acc ++ [(k, v)]
  | [], _, _, _ => rfl
  | (k0, v0) :: rest, k, v, h => by
    have hk0 : jsEqv k0 k = false := h (k0, v0) (List.mem_cons_self _ _)
    unfold setProp
    rw [if_neg (by rw [hk0]; exact Bool.false_ne_true)]
    rw [setProp_append rest k v (fun kv hm => h kv (List.mem_cons_of_mem _ hm))]
    rfl

theorem foldl_setProp : ∀ (ps acc : List (JsValue × JsValue)),
    (∀ kv' ∈ acc, ∀ kv ∈ ps, jsEqv kv'.1 kv.1 = false) →
    List.Pairwise (fun a b => jsEqv a.1 b.1 = false) ps →
    ps.foldl (fun a kv => setProp a kv.1 kv.2) acc = acc ++ ps
  | [], acc, _, _ => by simp
  | kv :: tl, acc, hcross, hpw => by
    simp only [List.foldl_cons]
    rw [setProp_append acc kv.1 kv.2
      (fun kv' h' => hcross kv' h' kv (List.mem_cons_self _ _))]
    have hcross' : ∀ kv' ∈ acc ++ [(kv.1, kv.2)], ∀ kv2 ∈ tl,
        jsEqv kv'.1 kv2.1 = false := by
      intro kv' h' kv2 h2
      rcases List.mem_append.mp h' with h'a | h'b
      · exact hcross kv' h'a kv2 (List.mem_cons_of_mem _ h2)
      · have hkv : kv' = (kv.1, kv.2) := by simpa using h'b
        subst hkv
        exact (List.pairwise_cons.mp hpw).1 kv2 h2
    rw [foldl_setProp tl (acc ++ [(kv.1, kv.2)]) hcross' (List.pairwise_cons.mp hpw).2]
    simp

theorem objFromPairs_eq_self (ps : List (JsValue × JsValue))
    (hpw : List.Pairwise (fun a b => jsEqv a.1 b.1 = false) ps) :
    objFromPairs ps = ps := by
  unfold objFromPairs
  rw [foldl_setProp ps [] (fun kv' h' => absurd h' (List.not_mem_nil _)) hpw]
  simp

theorem nodupKeys_pairwise : ∀ L : List (List Nat), nodupKeys L = true →
    List.Pairwise (fun a b => a ≠ b) L
  | [], _ => List.Pairwise.nil
  | s :: rest, h => by
    simp only [nodupKeys, Bool.and_eq_true, Bool.not_eq_true'] at h
    refine List.pairwise_cons.mpr ⟨?_, nodupKeys_pairwise rest h.2⟩
    intro b hb heq
    subst heq
    exact absurd hb (by simpa using h.1)

/-! ## Decoding the re-parsed node gives back the host value -/

mutual
theorem rtOk_m2v : ∀ (v : JsValue) (st : List Nat), rtOk st v = true →
    jsEqv (msgpack_to_v8 (normObj (toNode v))) v = true
  | .undef, _ => fun h => absurd h (by simp [rtOk])
  | .null, _ => fun _ => rfl
  | .boolean b, _ => fun _ => by simp [toNode, normObj, msgpack_to_v8, jsEqv]
  | .num q, st => fun h => by
    simp only [rtOk] at h
    unfold toNode
    split_ifs with h1 h2
    · have hden : ¬ q.den = 1 := by
        simpa [hasFrac] using h1
      rw [if_neg hden] at h
      simp [normObj, f64ofBits_f64bits h, msgpack_to_v8, jsEqv]
    · have hden : q.den = 1 := by
        simpa [hasFrac] using h1
      rw [if_pos hden] at h
      simp only [Bool.or_eq_true, Bool.and_eq_true, decide_eq_true_eq] at h
      have hnum : 0 < q.num := Rat.num_pos.mpr h2
      have hbound : q.num < 2 ^ 32 := by
        rcases h with ⟨_, hlt⟩ | ⟨_, hle⟩
        · exact hlt
        · omega
      have hq : (q.num : ℚ) = q := by
        have hdd := Rat.num_div_den q
        rw [hden] at hdd
        simpa using hdd
      simp only [normObj, msgpack_to_v8, jsEqv, decide_eq_true_eq]
      have hz : ((q.num.toNat : Int) % 2 ^ 32) = q.num := by omega
      rw [Rat.mkRat_one, hz, hq]
    · have hden : q.den = 1 := by
        simpa [hasFrac] using h1
      rw [if_pos hden] at h
      simp only [Bool.or_eq_true, Bool.and_eq_true, decide_eq_true_eq] at h
      have hnum : ¬ 0 < q.num := fun hc => h2 (Rat.num_pos.mp hc)
      have hq : (q.num : ℚ) = q := by
        have hdd := Rat.num_div_den q
        rw [hden] at hdd
        simpa using hdd
      have hbound : -(2 ^ 31) ≤ q.num ∧ q.num ≤ 0 := by
        rcases h with ⟨hgt, _⟩ | ⟨hge, hle⟩
        · omega
        · exact ⟨hge, hle⟩
      unfold normObj
      split_ifs with hz
      · have h0 : q.num = 0 := by omega
        simp only [msgpack_to_v8, jsEqv, decide_eq_true_eq]
        have hzz : ((q.num.toNat : Int) % 2 ^ 32) = q.num := by omega
        rw [Rat.mkRat_one, hzz, hq]
      · simp only [msgpack_to_v8, jsEqv, decide_eq_true_eq]
        have hw : wrap32 q.num = q.num := by
          unfold wrap32
          omega
        rw [Rat.mkRat_one, hw, hq]
  | .str s, _ => fun _ => by simp [toNode, normObj, msgpack_to_v8, jsEqv]
  | .buf _, _ => fun h => absurd h (by simp [rtOk])
  | .arr id l, st => fun h => by
    simp only [rtOk, Bool.and_eq_true] at h
    simp only [toNode, normObj, msgpack_to_v8, jsEqv]
    exact rtOkL_m2v l (id :: st) h.2
  | .obj id ps, st => fun h => by
    simp only [rtOk, Bool.and_eq_true, decide_eq_true_eq] at h
    obtain ⟨hjs, hkeys⟩ := rtOkP_m2v ps (id :: st) h.2
    have hnd := nodupKeys_pairwise _ h.1.2
    have hpwK : List.Pairwise (fun x y : JsValue => jsEqv x y = false)
        ((msgpackPairsToV8 (normPairs (toNodeP ps))).map Prod.fst) := by
      rw [hkeys, show (ps.map fun kv => JsValue.str (keyBytes kv.1))
        = (ps.map fun kv => keyBytes kv.1).map JsValue.str from by
          simp [List.map_map, Function.comp]]
      rw [List.pairwise_map]
      refine hnd.imp ?_
      intro a b hne
      simp only [jsEqv]
      exact beq_eq_false_iff_ne.mpr hne
    have hpw : List.Pairwise (fun a b : JsValue × JsValue => jsEqv a.1 b.1 = false)
        (msgpackPairsToV8 (normPairs (toNodeP ps))) := by
      rw [List.pairwise_map] at hpwK
      exact hpwK
    simp only [toNode, normObj, msgpack_to_v8, jsEqv]
    rw [objFromPairs_eq_self _ hpw]
    exact hjs

theorem rtOkL_m2v : ∀ (l : List JsValue) (st : List Nat), rtOkL st l = true →
    jsEqvL (msgpackListToV8 (normList (toNodeL l))) l = true
  | [], _ => fun _ => rfl
  | v :: vs, st => fun h => by
    simp only [rtOkL, Bool.and_eq_true] at h
    simp only [toNodeL, normList, msgpackListToV8, jsEqvL, Bool.and_eq_true]
    exact ⟨rtOk_m2v v st h.1, rtOkL_m2v vs st h.2⟩

theorem rtOkP_m2v : ∀ (l : List (JsValue × JsValue)) (st : List Nat),
    rtOkP st l = true →
    jsEqvP (msgpackPairsToV8 (normPairs (toNodeP l))) l = true ∧
    (msgpackPairsToV8 (normPairs (toNodeP l))).map Prod.fst =
      l.map (fun kv => JsValue.str (keyBytes kv.1))
  | [], _ => fun _ => ⟨rfl, rfl⟩
  | (k, v) :: ps, st => fun h => by
    simp only [rtOkP, Bool.and_eq_true] at h
    obtain ⟨⟨⟨hstr, hk⟩, hv⟩, hps⟩ := h
    obtain ⟨ihjs, ihkeys⟩ := rtOkP_m2v ps st hps
    match k, hstr with
    | .str sk, _ =>
      refine ⟨?_, ?_⟩
      · simp only [toNodeP, normPairs, msgpackPairsToV8, toNode, normObj,
          msgpack_to_v8, jsEqvP, jsEqv, Bool.and_eq_true]
        exact ⟨⟨by simp, rtOk_m2v v st hv⟩, ihjs⟩
      · simp only [toNodeP, normPairs, msgpackPairsToV8, toNode, normObj,
          msgpack_to_v8, List.map_cons]
        rw [ihkeys]
        rfl
end

/-! ## Claim theorems -/

/-- C1: the claim says `pack(v1, ..., vn)` concatenates the independent
encodings of the arguments in argument order.  The code converts
`args[0]` on every loop iteration, so `pack(1, "x")` produces the
encoding of `1` twice (`[0x01, 0x01]`), not `[0x01] ++ [0xa1, 0x78]`,
contradicting the comment block above `pack` in the source. -/
theorem C1_pack_reserializes_first_argument :
    pack [.num 1, .str [0x78]] = (.ok [0x01, 0x01], []) ∧
    packObj (.posInt 1) ++ packObj (.raw [0x78]) = [0x01, 0xa1, 0x78] ∧
    ([0x01, 0x01] : List Nat) ≠ [0x01, 0xa1, 0x78] :=
  ⟨rfl, rfl, by decide⟩

/-- C3: the claim says the guard stack is popped on leaving a composite
even on early return from a nested error, so that it is empty at the
end of every `pack` call.  The code skips `mc->out()` when the
exception unwinds: for `a = [b]; b = [b]` the failed `pack(a)` leaves
`a`'s identity on the stack, so the destructor's
`assert(_objs.empty())` fails. -/
theorem C3_guard_stack_left_nonempty_on_nested_cycle :
    pack [.arr 1 [.arr 2 [.arr 2 []]]] = (.error cycleMsg, [1]) ∧
    ([1] : List Nat) ≠ [] :=
  ⟨rfl, by decide⟩

/-- C4: the numeric conversion heuristic: a number with a nonzero
fractional part becomes a Double node; otherwise a strictly positive
number becomes an UnsignedInteger node and everything else (zero and
negative whole numbers) a SignedInteger node; in particular `0` and
`-5` take the signed path, `5` and `1e10` the unsigned path, `1.5` the
double path. -/
theorem C4_numeric_heuristic :
    (∀ (q : ℚ) (st : List Nat),
      v8_to_msgpack (.num q) st =
        .ok ((if hasFrac q then .double q
              else if 0 < q then .posInt q.num.toNat
              else .negInt q.num), st)) ∧
    v8_to_msgpack (.num 0) [] = .ok (.negInt 0, []) ∧
    v8_to_msgpack (.num (-5)) [] = .ok (.negInt (-5), []) ∧
    v8_to_msgpack (.num 5) [] = .ok (.posInt 5, []) ∧
    v8_to_msgpack (.num 10000000000) [] = .ok (.posInt 10000000000, []) ∧
    v8_to_msgpack (.num (mkRat 3 2)) [] = .ok (.double (mkRat 3 2), []) := by
  refine ⟨fun q st => ?_, rfl, rfl, rfl, rfl, rfl⟩
  unfold v8_to_msgpack
  by_cases h1 : hasFrac q
  · simp [h1]
  · by_cases h2 : 0 < q <;> simp [h1, h2]

/-- C5: a self-referential array or object fails with the
CircularReference error carrying the fixed message; detection is by
reference identity, so a value shared along two non-cyclic paths and
distinct-but-structurally-equal composites both succeed. -/
theorem C5_cycle_detection_by_identity :
    pack [.arr 1 [.arr 1 []]] = (.error cycleMsg, []) ∧
    pack [.obj 1 [(.str [0x78], .obj 1 [])]] = (.error cycleMsg, []) ∧
    (pack [.arr 1 [.arr 2 [], .arr 2 []]]).1 = .ok [0x92, 0x90, 0x90] ∧
    (pack [.arr 1 [.arr 2 [.num 1], .arr 3 [.num 1]]]).1 =
      .ok [0x92, 0x91, 0x01, 0x91, 0x01] ∧
    jsEqv (.arr 2 [.num 1]) (.arr 3 [.num 1]) = true :=
  ⟨rfl, rfl, rfl, rfl, by decide⟩

/-- C6: truncating any buffer that decodes to one complete object (in
particular a valid encoding truncated by one byte) to fewer bytes than
that object consumed makes `unpack` return the Incomplete marker
(`undefined`) with no error and no partial value; a malformed buffer
(bad type tag) makes it throw the deserialization error. -/
theorem C6_truncation_yields_incomplete :
    (∀ (bs : List Nat) (mo : MsgObject) (k n : Nat) (br : Option Nat),
      msgpack_unpack bs = .ok mo k → n < k →
      unpack br (.buf (bs.take n)) = (.undef, br)) ∧
    (∀ (bs : List Nat) (br : Option Nat),
      msgpack_unpack bs = .err →
      unpack br (.buf bs) = (.deserErr deserMsg, br)) := by
  constructor
  · intro bs mo k n br h hn
    have hfacts := (parse_prefix_all (bs.length + 1)).1 bs mo k h
    have hmore := hfacts.2.2.1 n ((bs.take n).length + 1) hn
    simp only [unpack, msgpack_unpack, hmore]
  · intro bs br h
    simp only [unpack, msgpack_unpack] at h ⊢
    rw [h]

/-- Witness for C6 on the spec's example `{a: 1, b: [1, 2, 3]}`: its
10-byte encoding parses completely, and the 9-byte truncation yields
the Incomplete marker; the reserved tag `0xc1` yields the
deserialization error. -/
theorem C6_truncation_witness :
    msgpack_unpack [0x82, 0xa1, 97, 0x01, 0xa1, 98, 0x93, 0x01, 0x02, 0x03] =
      .ok (.map [(.raw [97], .posInt 1),
                 (.raw [98], .array [.posInt 1, .posInt 2, .posInt 3])]) 10 ∧
    unpack none (.buf (List.take 9 [0x82, 0xa1, 97, 0x01, 0xa1, 98, 0x93, 0x01, 0x02, 0x03])) =
      (.undef, none) ∧
    msgpack_unpack [0xc1] = .err ∧
    unpack (some 7) (.buf [0xc1]) = (.deserErr deserMsg, some 7) :=
  ⟨rfl,
   C6_truncation_yields_incomplete.1
     [0x82, 0xa1, 97, 0x01, 0xa1, 98, 0x93, 0x01, 0x02, 0x03]
     (.map [(.raw [97], .posInt 1),
            (.raw [98], .array [.posInt 1, .posInt 2, .posInt 3])]) 10 9 none rfl
     (by omega),
   rfl,
   C6_truncation_yields_incomplete.2 [0xc1] (some 7) rfl⟩

/-- C7: whenever the deserializer fully parses one object, consuming
`k` of the buffer's bytes, `unpack` returns the converted host value
and writes `bytes_remaining` to the buffer length minus the final
offset. -/
theorem C7_bytes_remaining_equals_length_minus_offset :
    ∀ (bs : List Nat) (br : Option Nat) (mo : MsgObject) (k : Nat),
      msgpack_unpack bs = .ok mo k →
      unpack br (.buf bs) = (.value (msgpack_to_v8 mo), some (bs.length - k)) := by
  intro bs br mo k h
  simp [unpack, h]

/-- Witness for C7 at the buffer `[0x01, 0xa1, 0x78]` (the wire form of
`1` followed by `"x"`): the first object consumes one byte, leaving
two. -/
theorem C7_bytes_remaining_witness :
    msgpack_unpack [0x01, 0xa1, 0x78] = .ok (.posInt 1) 1 ∧
    unpack none (.buf [0x01, 0xa1, 0x78]) = (.value (.num 1), some 2) :=
  ⟨rfl,
   C7_bytes_remaining_equals_length_minus_offset [0x01, 0xa1, 0x78] none (.posInt 1) 1
     rfl⟩

/-- C8: decoding builds positive integers through
`Integer::NewFromUnsigned`, whose `uint32_t` parameter reduces the wire
value mod `2^32`, and negative integers through `Integer::New`, whose
`int32_t` parameter truncates to 32-bit signed; hence the encoding of
`2^32` decodes to `0`, not to its original value. -/
theorem C8_decode_truncates_to_32_bits :
    (∀ u : Nat, msgpack_to_v8 (.posInt u) = .num (mkRat (u % 2 ^ 32) 1)) ∧
    (∀ i : Int,
      msgpack_to_v8 (.negInt i) = .num (mkRat ((i + 2 ^ 31) % 2 ^ 32 - 2 ^ 31) 1)) ∧
    packObj (.posInt (2 ^ 32)) = [0xcf, 0, 0, 0, 1, 0, 0, 0, 0] ∧
    unpack none (.buf [0xcf, 0, 0, 0, 1, 0, 0, 0, 0]) = (.value (.num 0), some 0) ∧
    jsEqv (.num 0) (.num (mkRat 4294967296 1)) = false :=
  ⟨fun _ => rfl, fun _ => rfl, by decide, rfl, by decide⟩

/-- C9: any `unpack` call whose first argument is not a Buffer
(including a missing argument, i.e. `undefined`) throws the fixed
TypeError and performs no decoding (in particular `bytes_remaining` is
untouched). -/
theorem C9_unpack_rejects_non_buffer :
    ∀ (br : Option Nat) (v : JsValue), (∀ bs, v ≠ .buf bs) →
      unpack br v = (.typeErr bufferMsg, br) := by
  intro br v h
  cases v with
  | buf bs => exact absurd rfl (h bs)
  | _ => rfl

/-- Witness for C9 at `undefined` (the value of a missing argument). -/
theorem C9_unpack_rejects_non_buffer_witness :
    (∀ bs, JsValue.undef ≠ JsValue.buf bs) ∧
    unpack (some 5) .undef = (.typeErr bufferMsg, some 5) :=
  ⟨fun _ h => JsValue.noConfusion h,
   C9_unpack_rejects_non_buffer (some 5) .undef (fun _ h => JsValue.noConfusion h)⟩

/-- C10: only the success path writes `bytes_remaining`: whenever
`unpack` returns the Incomplete marker or throws (a TypeError or a
deserialization error), the stored value is returned unchanged. -/
theorem C10_bytes_remaining_preserved_off_success :
    ∀ (br : Option Nat) (v : JsValue) (o : UnpackOutcome) (br' : Option Nat),
      unpack br v = (o, br') → (∀ w, o ≠ .value w) → br' = br := by
  intro br v o br' h hne
  cases v with
  | buf bs =>
    cases hmo : msgpack_unpack bs with
    | ok mo k =>
      simp only [unpack, hmo, Prod.mk.injEq] at h
      exact absurd h.1.symm (hne _)
    | more =>
      simp only [unpack, hmo, Prod.mk.injEq] at h
      exact h.2.symm
    | err =>
      simp only [unpack, hmo, Prod.mk.injEq] at h
      exact h.2.symm
  | _ => exact congrArg Prod.snd h.symm

/-- Witness for C10 on the malformed buffer `[0xc1]`: the call throws
the deserialization error and `bytes_remaining` keeps its previous
value. -/
theorem C10_bytes_remaining_preserved_witness :
    unpack (some 5) (.buf [0xc1]) = (.deserErr deserMsg, some 5) ∧
    (some 5 : Option Nat) = some 5 :=
  ⟨rfl,
   C10_bytes_remaining_preserved_off_success (some 5) (.buf [0xc1])
     (.deserErr deserMsg) (some 5) rfl
     (fun _ h => UnpackOutcome.noConfusion h)⟩

/-- C2 (counterexample): the round-trip claim as stated is false.  The
integer `2^32` is a representable host value — a positive integer that the
numeric heuristic encodes as `uint 64` without any collapse (it is not
`-0` or similar) — yet decoding the bytes produced by encoding `[2^32]`
yields the host value `0`, not `2^32`, because `msgpack_to_v8` rebuilds
integers through 32-bit `Integer::NewFromUnsigned` (src/msgpack.cc line
213). -/
theorem C2_roundtrip_counterexample :
    (pack [JsValue.num (mkRat 4294967296 1)]).1 =
      .ok [0xcf, 0, 0, 0, 1, 0, 0, 0, 0] ∧
    unpack none (.buf [0xcf, 0, 0, 0, 1, 0, 0, 0, 0]) =
      (.value (.num (mkRat 0 1)), some 0) ∧
    jsEqv (.num (mkRat 0 1)) (.num (mkRat 4294967296 1)) = false :=
  ⟨rfl, rfl, by decide⟩

/-- C2 (amended): for host values in the round-trippable fragment `rtOk` —
no `undefined`/Buffer leaves, integers positive below `2^32` or in
`[-2^31, 0]`, fractional numbers exactly representable as binary64 normal
numbers, composite lengths within 32 bits, identities fresh along each
nesting path, and object keys distinct strings — decoding the bytes
produced by encoding `[v]` yields a host value equal to `v` (value
equality: strict equality on primitives, recursive on composites ignoring
identity) with 0 bytes remaining. -/
theorem C2_roundtrip_amended (v : JsValue) (br : Option Nat)
    (h : rtOk [] v = true) :
    ∃ B w, (pack [v]).1 = .ok B ∧
      unpack br (.buf B) = (.value w, some 0) ∧
      jsEqv w v = true :=
  ⟨packObj (toNode v), msgpack_to_v8 (normObj (toNode v)),
    by rw [pack_single v h],
    unpack_packObj v br h,
    rtOk_m2v v [] h⟩

/-- C2 witness: the amended round-trip instantiated at the concrete object
`{"a": 5, "b": [null, true, -3]}`. -/
theorem C2_roundtrip_amended_witness :
    rtOk [] (JsValue.obj 7 [(.str [97], .num (mkRat 5 1)),
      (.str [98], .arr 8 [.null, .boolean true, .num (mkRat (-3) 1)])]) = true ∧
    (∃ B w, (pack [JsValue.obj 7 [(.str [97], .num (mkRat 5 1)),
        (.str [98], .arr 8 [.null, .boolean true,
          .num (mkRat (-3) 1)])]]).1 = .ok B ∧
      unpack none (.buf B) = (.value w, some 0) ∧
      jsEqv w (JsValue.obj 7 [(.str [97], .num (mkRat 5 1)),
        (.str [98], .arr 8 [.null, .boolean true,
          .num (mkRat (-3) 1)])]) = true) :=
  ⟨by simp only [rtOk, rtOkL, rtOkP]; decide,
   C2_roundtrip_amended _ none (by simp only [rtOk, rtOkL, rtOkP]; decide)⟩

end NodeMsgpack
